import Mathlib

/-!
# A verification model of `njmergepair.py` (NJMerge pair merging)

This file shallowly embeds the core of `software/njmergepair.py`: the
constrained Neighbor-Joining merge of two constraint trees on disjoint
leaf sets.  Taxa are modelled as natural numbers, trees as rooted binary
trees (`BTree`), clade bitmasks as `Finset Nat`, and the Python floats of
the distance matrix as rationals (only order and field operations on the
distances are ever used by the algorithm, so `ℚ` is a faithful carrier
for the order-theoretic claims proved here).

Modelling conventions, recorded once:

* A dendropy node is identified with the subtree hanging below it.  In a
  tree whose leaf labels are distinct (`wf`), distinct nodes root
  subtrees with distinct leaf sets, so this identification is injective.
* A split bitmask over a tree's taxon namespace is modelled as the
  `Finset Nat` of the taxa on one side.  The constraint trees own their
  namespaces, which coincide with their leaf sets.
* Python dict insertion order in `map_splits_to_nodes` is an explicit
  `order : List BTree` parameter (the list of edges/nodes enumerated, in
  hash-table order); later insertions overwrite earlier ones, exactly as
  in the dict.
* Python exceptions are `none` / `Except.error` results.
-/

attribute [local semireducible] Rat.sub Rat.add Rat.mul Rat.inv

deriving instance DecidableEq for Except

namespace NJ

/-- Rooted binary tree over `Nat`-labelled leaves.  Constraint trees are
made binary by `resolve_polytomies(limit=2)` before the loop starts, and
every edit in the source attaches exactly two children to a fresh root,
so binary trees are the faithful carrier. -/
inductive BTree where
  | leaf (t : Nat)
  | node (l r : BTree)
deriving DecidableEq, Repr

/-- Leaf labels in left-to-right order (`get_leaf_list`). -/
def leavesList : BTree → List Nat
  | .leaf t => [t]
  | .node l r => leavesList l ++ leavesList r

/-- Leaf-label set of a tree or subtree (`get_leaf_set`). -/
def leaves (T : BTree) : Finset Nat := (leavesList T).toFinset

/-- Well-formedness: leaf labels within one tree are distinct (the
invariant stated for the data model; dendropy taxa are interned). -/
def wf (T : BTree) : Prop := (leavesList T).Nodup

instance (T : BTree) : Decidable (wf T) := by
  unfold wf; infer_instance

/-- Every node (= subtree) of a tree, root first.  This models the edge
set enumerated by `tree.bipartition_edge_map`: each node stands for the
edge above it, the root standing for the seed edge. -/
def positions : BTree → List BTree
  | .leaf t => [.leaf t]
  | .node l r => .node l r :: (positions l ++ positions r)

/-- The key set of the split-to-node map of `map_splits_to_nodes`: for
every node its clade bitmask and the complement bitmask on the tree's
own leaf set.  This set does not depend on dict iteration order. -/
def splitKeys (T : BTree) : Finset (Finset Nat) :=
  ((positions T).map leaves).toFinset ∪
    ((positions T).map (fun p => leaves T \ leaves p)).toFinset

/-- `map_splits_to_nodes`: fold the enumerated nodes into a map sending
each clade bitmask and its complement to the node.  `order` is the
hash-table enumeration order of `list(bipartition_to_edge_map)`; a later
insertion overwrites an earlier one exactly as in a Python dict. -/
def map_splits_to_nodes (L : Finset Nat) (order : List BTree) :
    Finset Nat → Option BTree :=
  order.foldl
    (fun m p => fun k => if k = leaves p ∨ k = L \ leaves p then some p else m k)
    (fun _ => none)

/-- `get_node_from_clade`: the whole-tree case returns the sentinel
`m ∅` (key `0`); a clade with labels outside the tree returns `None`
(the source tests `len(leaves ∩ clade) < len(clade)`); otherwise the
clade's bitmask is looked up in the map. -/
def get_node_from_clade (T : BTree) (m : Finset Nat → Option BTree)
    (clade : Finset Nat) : Option BTree :=
  if leaves T = clade then m ∅
  else if (leaves T ∩ clade).card < clade.card then none
  else m clade

/-- Whether `get_node_from_clade` on a freshly built split map finds the
clade -- equivalently (proved below in `map_isSome_iff_present`), the
clade is the whole leaf set or one side of a split of the tree.  The
oracle and editor only consume this presence information plus the clade
itself (rerooting at the found node is determined by the clade, see
`extract_nodes_from_split`), so presence is the faithful interface. -/
def present (T : BTree) (C : Finset Nat) : Bool :=
  decide (C = leaves T) ||
    (decide (C ⊆ leaves T) && decide (C ∈ splitKeys T))

/-- `retain_taxa_with_labels` followed by suppression of unary nodes:
restrict a tree to a label set, dropping empty sides. -/
def restrict : BTree → Finset Nat → Option BTree
  | .leaf t, S => if t ∈ S then some (.leaf t) else none
  | .node l r, S =>
    match restrict l S, restrict r S with
    | some l', some r' => some (.node l' r')
    | some l', none => some l'
    | none, some r' => some r'
    | none, none => none

/-- Split keys of an optional tree (`∅` for the absent tree). -/
def osplitKeys : Option BTree → Finset (Finset Nat)
  | none => ∅
  | some t => splitKeys t

/-- `are_two_trees_incompatible`: fewer than 4 shared taxa carry no
topological information; otherwise both trees are restricted to the
shared leaf set, unrooted, and their (complement-closed) split sets are
compared -- `false_positives_and_negatives` reports a difference iff the
two split sets differ. -/
def are_two_trees_incompatible (t1 t2 : BTree) : Bool :=
  let shared := leaves t1 ∩ leaves t2
  if shared.card < 4 then false
  else decide (osplitKeys (restrict t1 shared) ≠ osplitKeys (restrict t2 shared))

/-- Descend towards the node whose clade is `C`, re-hanging the rest of
the tree into the accumulator `up`.  `rerootGo t C up = some (s, rest)`
means: rerooting the whole tree `node t up` at the edge above the
`C`-clade node yields root children `s` (with `leaves s = C`) and
`rest`.  The bifurcation at the old root is suppressed by the top-level
call in `rerootCore`, as `reroot_at_edge` does. -/
def rerootGo (t : BTree) (C : Finset Nat) (up : BTree) :
    Option (BTree × BTree) :=
  if leaves t = C then some (t, up)
  else
    match t with
    | .leaf _ => none
    | .node l r =>
      if C ⊆ leaves l then rerootGo l C (.node r up)
      else if C ⊆ leaves r then rerootGo r C (.node l up)
      else none

/-- Reroot `T` at the edge above the node with clade `C` (the node found
by the split map): result is the pair (clade-side subtree, rest). -/
def rerootCore (T : BTree) (C : Finset Nat) : Option (BTree × BTree) :=
  match T with
  | .leaf _ => none
  | .node l r =>
    if C ⊆ leaves l then rerootGo l C r
    else if C ⊆ leaves r then rerootGo r C l
    else none

/-- `extract_nodes_from_split tree clade`: reroot at the node the split
map associates with `clade` and return the rerooted tree together with
the root child whose leaf set is `clade`.  The split map may associate
`clade` with the node on either side of the split (it stores complements
too, and dict overwrites can pick either root child); both choices name
the same unrooted edge, so the rerooted tree is determined by the clade:
we first seek the node whose clade is `C` and otherwise the node whose
clade is the complement, in which case the `rest` side is the `C` side.
A failure of both (or a mismatched bipartition) is the source's raised
exception. -/
def extract_nodes_from_split (T : BTree) (C : Finset Nat) :
    Option (BTree × BTree) :=
  match rerootCore T C with
  | some (s, rest) => some (.node s rest, s)
  | none =>
    match rerootCore T (leaves T \ C) with
    | some (s, rest) =>
      if leaves rest = C then some (.node s rest, rest) else none
    | none => none

/-- `join_nodes_in_one_tree tx Cx ty Cy`: reroot `tx` as `(Cx, X)` and
`ty` as `(Cy, Y)`, then build the new second tree `(Cx-copy, (Cy, Y))`.
Returns (rerooted first tree, new second tree). -/
def join_nodes_in_one_tree (tx : BTree) (Cx : Finset Nat)
    (ty : BTree) (Cy : Finset Nat) : Option (BTree × BTree) :=
  match extract_nodes_from_split tx Cx, extract_nodes_from_split ty Cy with
  | some (txr, nx), some (tyr, _) => some (txr, .node nx tyr)
  | _, _ => none

/-- `join_nodes_in_both_trees`: make the `A` and `B` clades siblings in
both trees.  When a clade is a whole tree the source grafts the live NJ
node itself (`nA` / `nB`, whose subtree realises the clade); under
`test = True` those branches return `[None, None]` before editing.  The
outer `none` is a raised exception (a failed reroot). -/
def join_nodes_in_both_trees (t1 : BTree) (nA : BTree) (A : Finset Nat)
    (t2 : BTree) (nB : BTree) (B : Finset Nat) (test : Bool) :
    Option (Option BTree × Option BTree) :=
  if A = leaves t1 ∧ B = leaves t2 then
    if test then some (none, none) else some (some (.node nA nB), none)
  else if A = leaves t1 then
    if test then some (none, none)
    else
      match extract_nodes_from_split t2 B with
      | some (t2r, _) => some (some (.node nA t2r), none)
      | none => none
  else if B = leaves t2 then
    if test then some (none, none)
    else
      match extract_nodes_from_split t1 A with
      | some (t1r, _) => some (some (.node t1r nB), none)
      | none => none
  else
    match extract_nodes_from_split t1 A, extract_nodes_from_split t2 B with
    | some (t1r, nA'), some (t2r, nB') =>
      some (some (.node t1r nB'), some (.node t2r nA'))
    | _, _ => none

/-- `test_join`: decide whether joining the clades `A` and `B` of two
live nodes violates the constraint trees.  `some true` = violates,
`some false` = compatible, `none` = a raised exception (overlapping
clades, a clade found in neither tree, or a failure inside the case-6/8
simulation).  The simulation operates on deep copies; since a deep copy
is isomorphic to the original, it is modelled by the trees themselves.
The node arguments passed to `join_nodes_in_both_trees` are unused under
`test = True`, so the model passes the trees as dummies. -/
def test_join (t1 t2 : BTree) (A B : Finset Nat) : Option Bool :=
  if (A ∩ B).Nonempty then none
  else
    let a1 := present t1 A
    let a2 := present t2 A
    let b1 := present t1 B
    let b2 := present t2 B
    if a1 && a2 then
      if b1 && b2 then
        some (!(present t1 (A ∪ B)) || !(present t2 (A ∪ B)))
      else if b1 then some (!(present t1 (A ∪ B)))
      else if b2 then some (!(present t2 (A ∪ B)))
      else none
    else if a1 then
      if b1 && b2 then some (!(present t1 (A ∪ B)))
      else if b1 then some (!(present t1 (A ∪ B)))
      else if b2 then
        match join_nodes_in_both_trees t1 t1 A t2 t2 B true with
        | none => none
        | some (none, _) => some false
        | some (some t1', some t2') => some (are_two_trees_incompatible t1' t2')
        | some (some _, none) => none
      else none
    else if a2 then
      if b1 && b2 then some (!(present t2 (A ∪ B)))
      else if b1 then
        match join_nodes_in_both_trees t1 t1 B t2 t2 A true with
        | none => none
        | some (none, _) => some false
        | some (some t1', some t2') => some (are_two_trees_incompatible t1' t2')
        | some (some _, none) => none
      else if b2 then some (!(present t2 (A ∪ B)))
      else none
    else none

/-- `join_nodes`: commit the join of clades `A` and `B`, editing one or
both constraint trees.  `nA`/`nB` are the live NJ nodes (their subtrees),
grafted verbatim in the whole-tree branches of case 6/8.  Returns the
new `tree1`, the new `tree2` (which the source sets to `None` in the
merge-and-grow whole-tree branches) and the `edited` flag; `none` is a
raised exception. -/
def join_nodes (t1 t2 : BTree) (A B : Finset Nat) (nA nB : BTree) :
    Option (Option BTree × Option BTree × Bool) :=
  if (A ∩ B).Nonempty then none
  else
    let a1 := present t1 A
    let a2 := present t2 A
    let b1 := present t1 B
    let b2 := present t2 B
    if a1 && a2 then
      if b1 && b2 then some (some t1, some t2, false)
      else if b1 then
        match join_nodes_in_one_tree t1 B t2 A with
        | some (t1r, t2') => some (some t1r, some t2', true)
        | none => none
      else if b2 then
        match join_nodes_in_one_tree t2 B t1 A with
        | some (t2r, t1') => some (some t1', some t2r, true)
        | none => none
      else none
    else if a1 then
      if b1 && b2 then
        match join_nodes_in_one_tree t1 A t2 B with
        | some (t1r, t2') => some (some t1r, some t2', true)
        | none => none
      else if b1 then some (some t1, some t2, false)
      else if b2 then
        match join_nodes_in_both_trees t1 nA A t2 nB B false with
        | some (ot1, ot2) => some (ot1, ot2, true)
        | none => none
      else none
    else if a2 then
      if b1 && b2 then
        match join_nodes_in_one_tree t2 A t1 B with
        | some (t2r, t1') => some (some t1', some t2r, true)
        | none => none
      else if b1 then
        match join_nodes_in_both_trees t1 nB B t2 nA A false with
        | some (ot1, ot2) => some (ot1, ot2, true)
        | none => none
      else if b2 then some (some t1, some t2, false)
      else none
    else none

/-! ## The constrained agglomeration loop (`merge_two_trees_via_nj`) -/

/-- The errors the core can surface.  The source raises plain Python
exceptions; the constructors record which site raised.  `badDistance`
and `constraintInfeasible` are the error kinds named by the interface
description; the loop below shows which of them the source can actually
produce. -/
inductive Err where
  | disjointness
  | leafMismatch
  | oracleRaise
  | joinRaise
  | noneUnpack
  | noneTree
  | emptyPool
  | fuelOut
  | badDistance
  | constraintInfeasible
deriving DecidableEq, Repr

/-- All ordered pairs `(x, y)` with `x` strictly before `y` in the list,
enumerated exactly as the nested loops `for idx1, nd1 in
enumerate(node_pool[:-1]): for nd2 in node_pool[idx1+1:]`. -/
def pairsList : List α → List (α × α)
  | [] => []
  | x :: xs => xs.map (fun y => (x, y)) ++ pairsList xs

/-- The scan's pair list: pool elements tagged with their pool index. -/
def enumPairs (pool : List BTree) : List ((Nat × BTree) × (Nat × BTree)) :=
  pairsList pool.enum

/-- The NJ selection criterion of the scan:
`q(u,v) = (n-2)·d(u,v) - xsub(u) - xsub(v)`. -/
def qOf (n : Nat) (d : BTree → BTree → ℚ) (xsub : BTree → ℚ)
    (u v : BTree) : ℚ :=
  ((n : ℚ) - 2) * d u v - xsub u - xsub v

/-- The scan of the Q-matrix, literally as in the source: walk the pairs
in pool order; a pair is examined only when `min_q is None or
qvalue < min_q`; an examined pair that the oracle accepts becomes the
new best.  `orc u v = none` is an exception escaping `test_join`. -/
def scanGo (q : BTree → BTree → ℚ) (orc : BTree → BTree → Option Bool) :
    List ((Nat × BTree) × (Nat × BTree)) →
      Option (ℚ × (Nat × BTree) × (Nat × BTree)) →
      Except Err (Option (ℚ × (Nat × BTree) × (Nat × BTree)))
  | [], s => .ok s
  | p :: ps, s =>
    if (match s with
        | none => true
        | some b => decide (q p.1.2 p.2.2 < b.1)) then
      match orc p.1.2 p.2.2 with
      | none => .error .oracleRaise
      | some true => scanGo q orc ps s
      | some false => scanGo q orc ps (some (q p.1.2 p.2.2, p))
    else scanGo q orc ps s

/-- One full scan over the pool. -/
def scanE (n : Nat) (pool : List BTree) (d : BTree → BTree → ℚ)
    (xsub : BTree → ℚ) (orc : BTree → BTree → Option Bool) :
    Except Err (Option (ℚ × (Nat × BTree) × (Nat × BTree))) :=
  scanGo (qOf n d xsub) orc (enumPairs pool) none

/-- Strict lexicographic order on the pool-index pairs of two scanned
pairs. -/
def pairLexLt (p q : (Nat × BTree) × (Nat × BTree)) : Prop :=
  p.1.1 < q.1.1 ∨ (p.1.1 = q.1.1 ∧ p.2.1 < q.2.1)

/-- Weak lexicographic order on the pool-index pairs. -/
def pairLexLe (p q : (Nat × BTree) × (Nat × BTree)) : Prop :=
  p.1.1 < q.1.1 ∨ (p.1.1 = q.1.1 ∧ p.2.1 ≤ q.2.1)

instance (p q : (Nat × BTree) × (Nat × BTree)) :
    Decidable (pairLexLt p q) := by
  unfold pairLexLt; infer_instance

instance (p q : (Nat × BTree) × (Nat × BTree)) :
    Decidable (pairLexLe p q) := by
  unfold pairLexLe; infer_instance

/-- Pure first-minimum fold: the state after a pair is the pair itself
when it strictly improves the current minimum (or when there is none),
the old state otherwise. -/
def qminFold (qv : (Nat × BTree) × (Nat × BTree) → ℚ) :
    List ((Nat × BTree) × (Nat × BTree)) →
      Option (ℚ × (Nat × BTree) × (Nat × BTree)) →
      Option (ℚ × (Nat × BTree) × (Nat × BTree))
  | [], s => s
  | p :: ps, s =>
    qminFold qv ps
      (match s with
        | none => some (qv p, p)
        | some b => if qv p < b.1 then some (qv p, p) else s)

/-- `c` is the accepted pair of minimal Q-value, index-lexicographically
first among ties, within the candidate list `l`. -/
def bestPair (qv : (Nat × BTree) × (Nat × BTree) → ℚ)
    (l : List ((Nat × BTree) × (Nat × BTree)))
    (c : (Nat × BTree) × (Nat × BTree)) : Prop :=
  c ∈ l ∧ ∀ p ∈ l, qv c < qv p ∨ (qv c = qv p ∧ pairLexLe c p)

/-- The NJ working state: the two constraint trees, the full taxon set,
the pool of live nodes (each live node is the subtree it has
agglomerated so far, in particular its leaf set is its clade), the
pairwise distances, the row sums, and the live count `n`. -/
structure NJState where
  t1 : BTree
  t2 : BTree
  full : Finset Nat
  pool : List BTree
  d : BTree → BTree → ℚ
  xsub : BTree → ℚ
  n : Nat

/-- Commit a join in the NJ state: create the new node with children
`u`, `v`, remove them from the pool, compute the new node's distances
`d(w,x) = (d(u,x) + d(v,x) - d(u,v)) / 2` and adjust the row sums as the
source does (`xsub(w) = Σ dist`, `xsub(x) += dist - d(u,x) - d(v,x)`). -/
def commitPool (s : NJState) (t1' t2' : BTree) (u v : BTree) : NJState :=
  let rest := (s.pool.erase u).erase v
  let w := BTree.node u v
  let nd : BTree → ℚ := fun x => (s.d x u + s.d x v - s.d u v) / 2
  { s with
    t1 := t1'
    t2 := t2'
    pool := rest ++ [w]
    d := fun a b => if a = w then nd b else if b = w then nd a else s.d a b
    xsub := fun x =>
      if x = w then (rest.map nd).sum
      else s.xsub x + nd x - s.d u x - s.d v x
    n := s.n - 1 }

/-- The tail of a loop iteration after `join_nodes` returned
`(tree1, tree2, edited)`: if the join edited a tree, return `tree1`
(then `tree2`) when it spans the full taxon set (early termination);
otherwise continue with the updated pool (the split maps, implicit
here, are rebuilt -- presence is order-independent).  A `None` second
tree that survives past the early-termination checks crashes in
`map_splits_to_nodes`/`get_leaf_set` (`noneTree`). -/
def afterJoin (s : NJState) (u v t1' : BTree) (ot2 : Option BTree)
    (edited : Bool) : Except Err (BTree ⊕ NJState) :=
  if edited then
    if leaves t1' = s.full then .ok (.inl t1')
    else
      match ot2 with
      | none => .error .noneTree
      | some t2' =>
        if leaves t2' = s.full then .ok (.inl t2')
        else .ok (.inr (commitPool s t1' t2' u v))
  else
    match ot2 with
    | none => .error .noneTree
    | some t2' => .ok (.inr (commitPool s t1' t2' u v))

/-- Commit the pair the scan selected: `join_nodes` on the clades of the
two live nodes, then the early-termination checks and pool update. -/
def afterScan (s : NJState) (u v : BTree) :
    Except Err (BTree ⊕ NJState) :=
  match join_nodes s.t1 s.t2 (leaves u) (leaves v) u v with
  | none => .error .joinRaise
  | some (none, _, _) => .error .joinRaise
  | some (some t1', ot2, edited) => afterJoin s u v t1' ot2 edited

/-- One iteration of the `while n > 1` loop: scan the Q-matrix (the
oracle is `test_join` on the current constraint trees); unpacking a
`None` scan result is the source's `TypeError` (`noneUnpack`); then
commit through `join_nodes`.  `.inl` is an early final tree, `.inr` the
next state. -/
def loopStep (s : NJState) : Except Err (BTree ⊕ NJState) :=
  match scanE s.n s.pool s.d s.xsub
      (fun u v => test_join s.t1 s.t2 (leaves u) (leaves v)) with
  | .error e => .error e
  | .ok none => .error .noneUnpack
  | .ok (some (_, (_, u), (_, v))) => afterScan s u v

/-- The agglomeration loop: while `n > 1` run `loopStep`; at `n ≤ 1` the
single remaining pool node is the output tree.  `fuel` only bounds the
recursion; `merge_two_trees_via_nj` supplies `n`, which suffices since
`n` decreases by one per committed join. -/
def mergeLoop : Nat → NJState → Except Err BTree
  | fuel, s =>
    if s.n ≤ 1 then
      match s.pool with
      | [] => .error .emptyPool
      | t :: _ => .ok t
    else
      match fuel with
      | 0 => .error .fuelOut
      | fuel' + 1 =>
        match loopStep s with
        | .error e => .error e
        | .ok (.inl t) => .ok t
        | .ok (.inr s') => mergeLoop fuel' s'

/-- Initial NJ state built from the taxon enumeration `order` (the
iteration order of `pdm._mapped_taxa`, a hash-set order in the source)
and the distance function `df`: the pool holds one leaf node per taxon
in enumeration order, distances come from the matrix, and
`xsub(u) = Σ_{v ≠ u} d(u,v)`. -/
def initState (t1 t2 : BTree) (order : List Nat) (df : Nat → Nat → ℚ) :
    NJState :=
  { t1 := t1
    t2 := t2
    full := leaves t1 ∪ leaves t2
    pool := order.map .leaf
    d := fun a b =>
      match a, b with
      | .leaf x, .leaf y => df x y
      | _, _ => 0
    xsub := fun a =>
      match a with
      | .leaf x => ((order.filter (fun y => y ≠ x)).map (df x)).sum
      | _ => 0
    n := order.length }

/-- `merge_two_trees_via_nj`: the entry checks of the source (disjoint
leaf sets, matrix taxa = union of the trees' leaves -- and nothing
else), then the agglomeration loop.  Polytomy resolution and
branch-length stripping are identities on the binary, unweighted model;
the split maps are implicit (presence at lookups is dict-order
independent, see `map_isSome_iff_present`). -/
def merge_two_trees_via_nj (t1 t2 : BTree) (order : List Nat)
    (df : Nat → Nat → ℚ) : Except Err BTree :=
  if (leaves t1 ∩ leaves t2).Nonempty then .error .disjointness
  else if order.toFinset ≠ leaves t1 ∪ leaves t2 then .error .leafMismatch
  else mergeLoop order.length (initState t1 t2 order df)

/-! ## Spec-side definition for the `lookup` refinement claim -/

/-- Modelled from the spec: `lookup(clade_labels)` "computes the bitmask
of the requested label set restricted to L(tree); returns the node if
the bitmask is present", with the sentinel `M[0]` when the label set
equals `L(tree)` exactly.  Stated for comparison with the source's
`get_node_from_clade`. -/
def lookup_restricted (T : BTree) (m : Finset Nat → Option BTree)
    (clade : Finset Nat) : Option BTree :=
  if clade = leaves T then m ∅
  else m (clade ∩ leaves T)

/-! ## Concrete instances used by witnesses and counterexamples -/

/-- The balanced four-leaf tree `((0,1),(2,3))`. -/
def exT4 : BTree :=
  .node (.node (.leaf 0) (.leaf 1)) (.node (.leaf 2) (.leaf 3))

/-- Its split map, built with the node enumeration in preorder. -/
def exMap4 : Finset Nat → Option BTree :=
  map_splits_to_nodes (leaves exT4) (positions exT4)

/-- The cherry `(0,1)`. -/
def exT01 : BTree := .node (.leaf 0) (.leaf 1)

/-- The cherry `(2,3)`. -/
def exT23 : BTree := .node (.leaf 2) (.leaf 3)

/-- Distances for the determinism counterexample: the two cherries are
far apart internally (`d = 2` within a constraint tree) and all cross
distances are `1`, so the four cross pairs tie on the Q-criterion. -/
def exDfTie : Nat → Nat → ℚ
  | 0, 1 => 2 | 1, 0 => 2
  | 2, 3 => 2 | 3, 2 => 2
  | 0, 0 => 0 | 1, 1 => 0 | 2, 2 => 0 | 3, 3 => 0
  | _, _ => 1

/-- The caterpillar `((0,1),2)` used by the early-termination witness. -/
def exT012 : BTree := .node (.node (.leaf 0) (.leaf 1)) (.leaf 2)

/-- Distances making `(0,3)` the unique Q-minimum. -/
def exDfC5 : Nat → Nat → ℚ
  | 0, 3 => 0 | 3, 0 => 0
  | 0, 0 => 0 | 1, 1 => 0 | 2, 2 => 0 | 3, 3 => 0
  | _, _ => 1

/-- A distance function with a negative entry. -/
def exDfNeg : Nat → Nat → ℚ
  | 0, 1 => -1 | 1, 0 => -1
  | _, _ => 0

/-- Distances for the scan witness: the pair `(0,1)` is closest. -/
def exDfScan : BTree → BTree → ℚ
  | .leaf 0, .leaf 1 => 0
  | .leaf 1, .leaf 0 => 0
  | _, _ => 1

/-- Oracle for the scan witness: rejects exactly the pair `(0,1)`. -/
def exOrcScan : BTree → BTree → Option Bool :=
  fun u v => some (decide (u = BTree.leaf 0 ∧ v = BTree.leaf 1))

/-- A mid-loop state in which the single live pair `({0},{1})` is
rejected by the oracle: `{0,1}` is not a split of `((0,2),(1,3))`. -/
def exStateC3 : NJState :=
  { t1 := .node (.node (.leaf 0) (.leaf 2)) (.node (.leaf 1) (.leaf 3))
    t2 := .leaf 4
    full := {0, 1, 2, 3, 4}
    pool := [.leaf 0, .leaf 1]
    d := fun _ _ => 1
    xsub := fun _ => 1
    n := 2 }

/-- The keys a subtree `x` contributes to the split map of a tree with
leaf set `L`: the clades of `x`'s nodes and their `L`-complements. -/
def partKeys (L : Finset Nat) (x : BTree) : Finset (Finset Nat) :=
  ((positions x).map leaves).toFinset ∪
    ((positions x).map (fun p => L \ leaves p)).toFinset

/-- The split keys of any binary arrangement of the three subtrees
`x`, `y`, `z` into one tree with leaf set `L`: the trivial pair plus the
per-part contributions.  (The key pair of the internal vertex grouping
two of the parts coincides with the self pair of the third part.) -/
def triKeys (L : Finset Nat) (x y z : BTree) : Finset (Finset Nat) :=
  {L, ∅} ∪ partKeys L x ∪ partKeys L y ∪ partKeys L z

/-- Clades `A` and `B` are siblings in the unrooted reading of `t`:
their union is one side of a split of `t` (or the whole leaf set, in
which case `t` is exactly the pair `(A,B)`).  For disjoint clades that
are themselves splits of `t`, this coincides with having a common
neighbour vertex, by laminarity of the clades of a binary tree. -/
def sibling_clades (t : BTree) (A B : Finset Nat) : Prop :=
  A ∪ B = leaves t ∨ (A ∪ B) ∈ splitKeys t

/-! ## Basic facts about trees, positions and split keys -/

theorem leavesList_ne_nil (T : BTree) : leavesList T ≠ [] := by
  induction T with
  | leaf t => simp [leavesList]
  | node l r ihl ihr => simp [leavesList, ihl]

theorem leaves_nonempty (T : BTree) : (leaves T).Nonempty := by
  have h := leavesList_ne_nil T
  rcases List.exists_mem_of_ne_nil _ h with ⟨x, hx⟩
  exact ⟨x, by simpa [leaves] using hx⟩

theorem leaves_node (l r : BTree) :
    leaves (.node l r) = leaves l ∪ leaves r := by
  simp [leaves, leavesList]

theorem self_mem_positions (T : BTree) : T ∈ positions T := by
  cases T <;> simp [positions]

theorem leaves_subset_of_mem_positions {T p : BTree}
    (h : p ∈ positions T) : leaves p ⊆ leaves T := by
  induction T with
  | leaf t => simp [positions] at h; subst h; exact Finset.Subset.refl _
  | node l r ihl ihr =>
    simp only [positions, List.mem_cons, List.mem_append] at h
    rcases h with h | h | h
    · subst h; exact Finset.Subset.refl _
    · exact (ihl h).trans (by rw [leaves_node]; exact Finset.subset_union_left)
    · exact (ihr h).trans (by rw [leaves_node]; exact Finset.subset_union_right)

theorem wf_left {l r : BTree} (h : wf (.node l r)) : wf l :=
  (List.nodup_append.mp h).1

theorem wf_right {l r : BTree} (h : wf (.node l r)) : wf r :=
  (List.nodup_append.mp h).2.1

theorem wf_disjoint {l r : BTree} (h : wf (.node l r)) :
    Disjoint (leaves l) (leaves r) := by
  have hd := (List.nodup_append.mp h).2.2
  rw [Finset.disjoint_left]
  intro a hal har
  exact hd (by simpa [leaves] using hal) (by simpa [leaves] using har)

theorem leaves_injOn_positions {T : BTree} (hw : wf T) :
    ∀ p ∈ positions T, ∀ q ∈ positions T, leaves p = leaves q → p = q := by
  induction T with
  | leaf t =>
    intro p hp q hq _
    simp [positions] at hp hq
    rw [hp, hq]
  | node l r ihl ihr =>
    intro p hp q hq hpq
    have hdisj := wf_disjoint hw
    simp only [positions, List.mem_cons, List.mem_append] at hp hq
    have hsub : ∀ {s : BTree}, s ∈ positions l → leaves s ⊆ leaves l :=
      fun hs => leaves_subset_of_mem_positions hs
    have hsub' : ∀ {s : BTree}, s ∈ positions r → leaves s ⊆ leaves r :=
      fun hs => leaves_subset_of_mem_positions hs
    have hfull : ¬ ∃ s ∈ positions l, leaves (BTree.node l r) = leaves s := by
      rintro ⟨s, hs, hse⟩
      have h1 : leaves r ⊆ leaves s := by
        rw [← hse, leaves_node]; exact Finset.subset_union_right
      have h2 : leaves s ⊆ leaves l := hsub hs
      have h3 : leaves r ⊆ leaves l := h1.trans h2
      rcases leaves_nonempty r with ⟨x, hx⟩
      exact (Finset.disjoint_right.mp hdisj hx) (h3 hx)
    have hfull' : ¬ ∃ s ∈ positions r, leaves (BTree.node l r) = leaves s := by
      rintro ⟨s, hs, hse⟩
      have h1 : leaves l ⊆ leaves s := by
        rw [← hse, leaves_node]; exact Finset.subset_union_left
      have h2 : leaves s ⊆ leaves r := hsub' hs
      have h3 : leaves l ⊆ leaves r := h1.trans h2
      rcases leaves_nonempty l with ⟨x, hx⟩
      exact (Finset.disjoint_left.mp hdisj hx) (h3 hx)
    have hcross : ∀ {s s' : BTree}, s ∈ positions l → s' ∈ positions r →
        leaves s ≠ leaves s' := by
      intro s s' hs hs' he
      rcases leaves_nonempty s with ⟨x, hx⟩
      have hxl : x ∈ leaves l := hsub hs hx
      have hxr : x ∈ leaves r := hsub' hs' (he ▸ hx)
      exact (Finset.disjoint_left.mp hdisj hxl) hxr
    rcases hp with hp | hp | hp <;> rcases hq with hq | hq | hq
    · rw [hp, hq]
    · exact absurd ⟨q, hq, by rw [← hp, hpq]⟩ hfull
    · exact absurd ⟨q, hq, by rw [← hp, hpq]⟩ hfull'
    · exact absurd ⟨p, hp, by rw [← hq, ← hpq]⟩ hfull
    · exact ihl (wf_left hw) p hp q hq hpq
    · exact absurd hpq (hcross hp hq)
    · exact absurd ⟨p, hp, by rw [← hq, ← hpq]⟩ hfull'
    · exact absurd hpq.symm (hcross hq hp)
    · exact ihr (wf_right hw) p hp q hq hpq

theorem positions_nodup {T : BTree} (hw : wf T) : (positions T).Nodup := by
  induction T with
  | leaf t => simp [positions]
  | node l r ihl ihr =>
    have hdisj := wf_disjoint hw
    have hln : (positions l).Nodup := ihl (wf_left hw)
    have hrn : (positions r).Nodup := ihr (wf_right hw)
    have hlr : ∀ s ∈ positions l, s ∉ positions r := by
      intro s hs hs'
      rcases leaves_nonempty s with ⟨x, hx⟩
      exact (Finset.disjoint_left.mp hdisj
        (leaves_subset_of_mem_positions hs hx))
        (leaves_subset_of_mem_positions hs' hx)
    have hroot : (BTree.node l r) ∉ positions l ++ positions r := by
      intro h
      rcases List.mem_append.mp h with h | h
      · have h1 : leaves r ⊆ leaves l := by
          have := leaves_subset_of_mem_positions h
          rw [leaves_node] at this
          exact Finset.subset_union_right.trans this
        rcases leaves_nonempty r with ⟨x, hx⟩
        exact (Finset.disjoint_right.mp hdisj hx) (h1 hx)
      · have h1 : leaves l ⊆ leaves r := by
          have := leaves_subset_of_mem_positions h
          rw [leaves_node] at this
          exact Finset.subset_union_left.trans this
        rcases leaves_nonempty l with ⟨x, hx⟩
        exact (Finset.disjoint_left.mp hdisj hx) (h1 hx)
    simp only [positions, List.nodup_cons, List.nodup_append]
    exact ⟨hroot, hln, hrn, fun a ha => hlr a ha⟩

theorem mem_splitKeys {T : BTree} {k : Finset Nat} :
    k ∈ splitKeys T ↔
      ∃ p ∈ positions T, k = leaves p ∨ k = leaves T \ leaves p := by
  simp only [splitKeys, Finset.mem_union, List.mem_toFinset, List.mem_map]
  constructor
  · rintro (⟨p, hp, he⟩ | ⟨p, hp, he⟩)
    · exact ⟨p, hp, Or.inl he.symm⟩
    · exact ⟨p, hp, Or.inr he.symm⟩
  · rintro ⟨p, hp, he | he⟩
    · exact Or.inl ⟨p, hp, he.symm⟩
    · exact Or.inr ⟨p, hp, he.symm⟩

/-! ## The split-to-node map: last write wins -/

/-- The fold of `map_splits_to_nodes` keeps the last write to each key:
the map value at `k` is the last enumerated node whose clade or clade
complement is `k` (first hit in the reversed order). -/
theorem map_splits_eq_find (L : Finset Nat) (order : List BTree)
    (k : Finset Nat) :
    map_splits_to_nodes L order k =
      order.reverse.find?
        (fun p => decide (k = leaves p ∨ k = L \ leaves p)) := by
  induction order using List.reverseRecOn with
  | nil => rfl
  | append_singleton os p ih =>
    rw [map_splits_to_nodes, List.foldl_append, List.foldl_cons,
      List.foldl_nil, List.reverse_append]
    simp only [List.reverse_cons, List.reverse_nil, List.nil_append,
      List.singleton_append]
    by_cases h : k = leaves p ∨ k = L \ leaves p
    · rw [List.find?_cons_of_pos _ (by simpa using h), if_pos h]
    · rw [List.find?_cons_of_neg _ (by simpa using h), if_neg h]
      exact ih

theorem map_splits_isSome_iff {L : Finset Nat} {order : List BTree}
    {k : Finset Nat} :
    (map_splits_to_nodes L order k).isSome = true ↔
      ∃ p ∈ order, k = leaves p ∨ k = L \ leaves p := by
  rw [map_splits_eq_find]
  rw [List.find?_isSome]
  constructor
  · rintro ⟨p, hp, hpred⟩
    exact ⟨p, List.mem_reverse.mp hp, by simpa using hpred⟩
  · rintro ⟨p, hp, hpred⟩
    exact ⟨p, List.mem_reverse.mpr hp, by simpa using hpred⟩

theorem map_splits_eq_some {L : Finset Nat} {order : List BTree}
    {k : Finset Nat} {p : BTree}
    (h : map_splits_to_nodes L order k = some p) :
    p ∈ order ∧ (k = leaves p ∨ k = L \ leaves p) := by
  rw [map_splits_eq_find] at h
  refine ⟨List.mem_reverse.mp (List.mem_of_find?_eq_some h), ?_⟩
  simpa using List.find?_some h

/-! ## `get_node_from_clade`: subset test and presence -/

theorem inter_card_lt_iff_not_subset (L C : Finset Nat) :
    (L ∩ C).card < C.card ↔ ¬ C ⊆ L := by
  constructor
  · intro h hsub
    rw [Finset.inter_eq_right.mpr hsub] at h
    exact lt_irrefl _ h
  · intro h
    refine Finset.card_lt_card ?_
    rw [Finset.ssubset_iff_subset_ne]
    refine ⟨Finset.inter_subset_right, fun he => h ?_⟩
    intro x hx
    have : x ∈ L ∩ C := he.symm ▸ hx
    exact (Finset.mem_inter.mp this).1

/-- Whether a lookup through `get_node_from_clade` finds a node does not
depend on the dict iteration order: for a map freshly built from the
tree's node enumeration (in any order) it is exactly `present`. -/
theorem gnfc_isSome_iff_present {T : BTree} {order : List BTree}
    {C : Finset Nat} (hperm : order.Perm (positions T)) :
    (get_node_from_clade T (map_splits_to_nodes (leaves T) order) C).isSome
      = present T C := by
  by_cases hful : leaves T = C
  · subst hful
    have hx : (map_splits_to_nodes (leaves T) order ∅).isSome = true := by
      rw [map_splits_isSome_iff]
      exact ⟨T, hperm.mem_iff.mpr (self_mem_positions T),
        Or.inr (by simp)⟩
    simp [get_node_from_clade, present, hx]
  · by_cases hsub : C ⊆ leaves T
    · have hcard : ¬ (leaves T ∩ C).card < C.card := by
        rw [inter_card_lt_iff_not_subset]; simpa using hsub
      have : (map_splits_to_nodes (leaves T) order C).isSome
          = decide (C ∈ splitKeys T) := by
        by_cases hmem : C ∈ splitKeys T
        · rcases mem_splitKeys.mp hmem with ⟨p, hp, hor⟩
          simp only [hmem, decide_eq_true_eq, decide_True]
          rw [map_splits_isSome_iff]
          exact ⟨p, hperm.mem_iff.mpr hp, hor⟩
        · simp only [hmem, decide_False]
          rw [Bool.eq_false_iff]
          intro hs
          rcases map_splits_isSome_iff.mp hs with ⟨p, hp, hor⟩
          exact hmem (mem_splitKeys.mpr ⟨p, hperm.mem_iff.mp hp, hor⟩)
      simp [get_node_from_clade, present, hful, Ne.symm hful, hcard, hsub,
        this]
    · have hcard : (leaves T ∩ C).card < C.card :=
        (inter_card_lt_iff_not_subset _ _).mpr hsub
      simp [get_node_from_clade, present, hful, Ne.symm hful, hcard, hsub]

theorem find?_congr {p q : α → Bool} :
    ∀ {l : List α}, (∀ x ∈ l, p x = q x) → l.find? p = l.find? q := by
  intro l
  induction l with
  | nil => intro _; rfl
  | cons a l ih =>
    intro h
    rw [List.find?_cons, List.find?_cons, h a (List.mem_cons_self a l),
      ih fun x hx => h x (List.mem_cons_of_mem a hx)]

theorem find?_eq_some_of_unique {p : α → Bool} {a : α} :
    ∀ {l : List α}, a ∈ l → p a = true → (∀ x ∈ l, p x = true → x = a) →
      l.find? p = some a := by
  intro l
  induction l with
  | nil => intro h; exact absurd h (List.not_mem_nil a)
  | cons b l ih =>
    intro hmem hpa huniq
    rw [List.find?_cons]
    by_cases hb : p b = true
    · rw [hb]
      exact congrArg some (huniq b (List.mem_cons_self b l) hb) ▸ rfl
    · rw [Bool.eq_false_iff.mpr hb]
      rcases List.mem_cons.mp hmem with h | h
      · exact absurd (h ▸ hpa) hb
      · exact ih h hpa fun x hx hpx => huniq x (List.mem_cons_of_mem b hx) hpx

theorem sdiff_sdiff_cancel {L B : Finset Nat} (hB : B ⊆ L) :
    L \ (L \ B) = B := by
  rw [Finset.sdiff_sdiff_self_left, Finset.inter_eq_right.mpr hB]

/-- For subsets of `L`, being each other's complement is symmetric. -/
theorem compl_swap {L A B : Finset Nat} (hA : A ⊆ L) (hB : B ⊆ L) :
    A = L \ B ↔ B = L \ A := by
  constructor
  · intro h; rw [h, sdiff_sdiff_cancel hB]
  · intro h; rw [h, sdiff_sdiff_cancel hA]

/-- On any enumeration of the tree's nodes, the zero key (the complement
of the whole leaf set) is written only by the root, so it survives all
overwrites: the sentinel `M[0]` is the entire tree. -/
theorem map_splits_zero_key {T : BTree} {order : List BTree} (hw : wf T)
    (hperm : order.Perm (positions T)) :
    map_splits_to_nodes (leaves T) order ∅ = some T := by
  rw [map_splits_eq_find]
  apply find?_eq_some_of_unique
  · exact List.mem_reverse.mpr (hperm.mem_iff.mpr (self_mem_positions T))
  · simp
  · intro p hp hpred
    have hpmem : p ∈ positions T := hperm.mem_iff.mp (List.mem_reverse.mp hp)
    simp only [decide_eq_true_eq] at hpred
    rcases hpred with h | h
    · exact absurd h.symm (Finset.nonempty_iff_ne_empty.mp (leaves_nonempty p))
    · have hsub : leaves p ⊆ leaves T := leaves_subset_of_mem_positions hpmem
      have : leaves T ⊆ leaves p := by
        intro x hx
        by_contra hxp
        have hmem : x ∈ leaves T \ leaves p := Finset.mem_sdiff.mpr ⟨hx, hxp⟩
        rw [← h] at hmem
        exact absurd hmem (Finset.not_mem_empty x)
      exact leaves_injOn_positions hw p hpmem T (self_mem_positions T)
        (Finset.Subset.antisymm hsub this)

/-! ## Claim C6: the clade lookup -/

/-- C6, counterexample.  The claim says the lookup computes the bitmask
of the requested label set *restricted to* `L(T)` and looks that up
(`lookup_restricted`).  The source instead returns `None` outright
whenever the label set is not contained in `L(T)`: for the tree
`((0,1),(2,3))` and the label set `{0,1,4}`, the restricted bitmask
`{0,1}` is present in the map, but `get_node_from_clade` returns
`none`. -/
theorem claim_C6_cex :
    get_node_from_clade exT4 exMap4 {0, 1, 4} ≠
      lookup_restricted exT4 exMap4 {0, 1, 4} := by decide

/-- C6, amended: `get_node_from_clade T M S` returns `M[0]` when
`S = L(T)` exactly, `None` when `S ⊄ L(T)` (no restriction of `S` is
performed), and otherwise the node mapped by the bitmask of `S`;
moreover on a freshly built split map the sentinel `M[0]` is the entire
tree.  The first conjunct rewrites the source's cardinality test
`|L(T) ∩ S| < |S|` into the subset condition. -/
theorem claim_C6 :
    (∀ (T : BTree) (m : Finset Nat → Option BTree) (S : Finset Nat),
      get_node_from_clade T m S =
        if S = leaves T then m ∅
        else if S ⊆ leaves T then m S
        else none) ∧
    (∀ (T : BTree) (order : List BTree), wf T → order.Perm (positions T) →
      map_splits_to_nodes (leaves T) order ∅ = some T) := by
  constructor
  · intro T m S
    by_cases hful : S = leaves T
    · simp [get_node_from_clade, hful]
    · by_cases hsub : S ⊆ leaves T
      · have hcard : ¬ (leaves T ∩ S).card < S.card := by
          rw [inter_card_lt_iff_not_subset]; simpa using hsub
        rw [get_node_from_clade, if_neg (fun h => hful h.symm),
          if_neg hcard, if_neg hful, if_pos hsub]
      · have hcard : (leaves T ∩ S).card < S.card :=
          (inter_card_lt_iff_not_subset _ _).mpr hsub
        rw [get_node_from_clade, if_neg (fun h => hful h.symm),
          if_pos hcard, if_neg hful, if_neg hsub]
  · intro T order hw hperm
    exact map_splits_zero_key hw hperm

/-- C6 witness: the amended lookup equation and the sentinel, at the
concrete tree `((0,1),(2,3))`. -/
theorem claim_C6_witness :
    (get_node_from_clade exT4 exMap4 {0, 1} =
      if ({0, 1} : Finset Nat) = leaves exT4 then exMap4 ∅
      else if ({0, 1} : Finset Nat) ⊆ leaves exT4 then exMap4 {0, 1}
      else none) ∧
    map_splits_to_nodes (leaves exT4) (positions exT4) ∅ = some exT4 :=
  ⟨claim_C6.1 exT4 exMap4 {0, 1},
    claim_C6.2 exT4 (positions exT4) (by decide) (List.Perm.refl _)⟩

/-! ## Claim C7: split symmetry of the lookup -/

/-- C7, counterexample.  For the tree `((0,1),(2,3))` with the split map
built in preorder enumeration, the node `v = (0,1)` has clade `{0,1}`, a
proper nonempty subset of the leaf set, yet `lookup({0,1})` is the
*other* root child `(2,3)` -- the complement entry of `(2,3)` overwrote
the entry of `v` -- so `lookup(C) = v` fails. -/
theorem claim_C7_cex :
    BTree.node (.leaf 0) (.leaf 1) ∈ positions exT4 ∧
    leaves (BTree.node (.leaf 0) (.leaf 1)) = {0, 1} ∧
    get_node_from_clade exT4 exMap4 {0, 1} ≠
      some (BTree.node (.leaf 0) (.leaf 1)) := by decide

/-- C7, amended: on a split map freshly built in any enumeration order,
for every node `v` with proper clade `C`, `lookup(C)` and
`lookup(L(T) \ C)` always agree (each node writes both keys, so the two
keys see the same sequence of overwrites); and the common value is `v`
itself whenever no node of the tree has clade `L(T) \ C` -- i.e.
whenever `v` is not a child of the root.  (When `v` is a root child the
common value can be `v`'s sibling, as the counterexample shows.) -/
theorem claim_C7 (T : BTree) (order : List BTree) (v : BTree) (hw : wf T)
    (hperm : order.Perm (positions T)) (hv : v ∈ positions T)
    (hproper : leaves v ≠ leaves T) :
    get_node_from_clade T (map_splits_to_nodes (leaves T) order) (leaves v) =
      get_node_from_clade T (map_splits_to_nodes (leaves T) order)
        (leaves T \ leaves v) ∧
    ((∀ w ∈ positions T, leaves w ≠ leaves T \ leaves v) →
      get_node_from_clade T (map_splits_to_nodes (leaves T) order) (leaves v)
        = some v) := by
  have hsub : leaves v ⊆ leaves T := leaves_subset_of_mem_positions hv
  have hCne : (leaves v).Nonempty := leaves_nonempty v
  have hco_ne : leaves T \ leaves v ≠ leaves T := by
    intro h
    rcases hCne with ⟨x, hx⟩
    have : x ∈ leaves T \ leaves v := h.symm ▸ hsub hx
    exact (Finset.mem_sdiff.mp this).2 hx
  have hco_sub : leaves T \ leaves v ⊆ leaves T := Finset.sdiff_subset
  have hgC : get_node_from_clade T (map_splits_to_nodes (leaves T) order)
      (leaves v) = map_splits_to_nodes (leaves T) order (leaves v) := by
    have hcard : ¬ (leaves T ∩ leaves v).card < (leaves v).card := by
      rw [inter_card_lt_iff_not_subset]; simp [hsub]
    rw [get_node_from_clade, if_neg (fun h => hproper h.symm), if_neg hcard]
  have hgD : get_node_from_clade T (map_splits_to_nodes (leaves T) order)
      (leaves T \ leaves v) =
        map_splits_to_nodes (leaves T) order (leaves T \ leaves v) := by
    have hcard : ¬ (leaves T ∩ (leaves T \ leaves v)).card <
        (leaves T \ leaves v).card := by
      rw [inter_card_lt_iff_not_subset]; simp [hco_sub]
    rw [get_node_from_clade, if_neg (fun h => hco_ne h.symm), if_neg hcard]
  constructor
  · rw [hgC, hgD, map_splits_eq_find, map_splits_eq_find]
    apply find?_congr
    intro p hp
    have hpmem : p ∈ positions T := hperm.mem_iff.mp (List.mem_reverse.mp hp)
    have hpsub : leaves p ⊆ leaves T := leaves_subset_of_mem_positions hpmem
    have hiff : (leaves v = leaves p ∨ leaves v = leaves T \ leaves p) ↔
        (leaves T \ leaves v = leaves p ∨
          leaves T \ leaves v = leaves T \ leaves p) := by
      constructor
      · rintro (h | h)
        · exact Or.inr (by rw [h])
        · exact Or.inl ((compl_swap hsub hpsub).mp h).symm
      · rintro (h | h)
        · exact Or.inr ((compl_swap hpsub hsub).mp h.symm)
        · have : leaves v = leaves p := by
            have h1 := congrArg (fun s => leaves T \ s) h
            simpa [sdiff_sdiff_cancel hsub, sdiff_sdiff_cancel hpsub] using h1
          exact Or.inl this
    simp only [decide_eq_decide]
    exact hiff
  · intro hnone
    rw [hgC, map_splits_eq_find]
    rw [find?_eq_some_of_unique
      (List.mem_reverse.mpr (hperm.mem_iff.mpr hv)) (by simp) ?uniq]
    case uniq =>
      intro p hp hpred
      have hpmem : p ∈ positions T :=
        hperm.mem_iff.mp (List.mem_reverse.mp hp)
      have hpsub : leaves p ⊆ leaves T := leaves_subset_of_mem_positions hpmem
      simp only [decide_eq_true_eq] at hpred
      rcases hpred with h | h
      · exact leaves_injOn_positions hw p hpmem v hv h.symm
      · have : leaves p = leaves T \ leaves v :=
          (compl_swap hsub hpsub).mp h
        exact absurd this (hnone p hpmem)

/-- C7 witness: at the concrete tree `((0,1),(2,3))` and the non-root
node `v = leaf 0`, both lookups return `v`. -/
theorem claim_C7_witness :
    (get_node_from_clade exT4
        (map_splits_to_nodes (leaves exT4) (positions exT4))
        (leaves (BTree.leaf 0)) =
      get_node_from_clade exT4
        (map_splits_to_nodes (leaves exT4) (positions exT4))
        (leaves exT4 \ leaves (BTree.leaf 0))) ∧
    get_node_from_clade exT4
        (map_splits_to_nodes (leaves exT4) (positions exT4))
        (leaves (BTree.leaf 0)) = some (BTree.leaf 0) := by
  have h := claim_C7 exT4 (positions exT4) (BTree.leaf 0) (by decide)
    (List.Perm.refl _) (by decide) (by decide)
  exact ⟨h.1, h.2 (by decide)⟩

/-! ## Rerooting preserves the unrooted split set -/

theorem union_sdiff_cancel_right' {s t : Finset Nat} (h : Disjoint s t) :
    (s ∪ t) \ t = s := by
  rw [Finset.union_sdiff_right, Finset.sdiff_eq_self_of_disjoint h]

theorem union_sdiff_cancel_left' {s t : Finset Nat} (h : Disjoint s t) :
    (s ∪ t) \ s = t := by
  rw [Finset.union_sdiff_left, Finset.sdiff_eq_self_of_disjoint h.symm]

theorem mem_partKeys {L : Finset Nat} {x : BTree} {k : Finset Nat} :
    k ∈ partKeys L x ↔
      ∃ p ∈ positions x, k = leaves p ∨ k = L \ leaves p := by
  simp only [partKeys, Finset.mem_union, List.mem_toFinset, List.mem_map]
  constructor
  · rintro (⟨p, hp, he⟩ | ⟨p, hp, he⟩)
    · exact ⟨p, hp, Or.inl he.symm⟩
    · exact ⟨p, hp, Or.inr he.symm⟩
  · rintro ⟨p, hp, he | he⟩
    · exact Or.inl ⟨p, hp, he.symm⟩
    · exact Or.inr ⟨p, hp, he.symm⟩

theorem mem_triKeys {L : Finset Nat} {x y z : BTree} {k : Finset Nat} :
    k ∈ triKeys L x y z ↔
      k = L ∨ k = ∅ ∨ k ∈ partKeys L x ∨ k ∈ partKeys L y ∨
        k ∈ partKeys L z := by
  simp only [triKeys, Finset.mem_union, Finset.mem_insert,
    Finset.mem_singleton]
  tauto

/-- The split keys of `((x,y),z)` are the trivial pair plus the three
per-part contributions; the internal `(x,y)` vertex contributes the
same pair as the part `z` itself. -/
theorem splitKeys_node_node {x y z : BTree}
    (hw : wf (.node (.node x y) z)) :
    splitKeys (.node (.node x y) z) =
      triKeys (leaves (.node (.node x y) z)) x y z := by
  have hdz : Disjoint (leaves x ∪ leaves y) (leaves z) := by
    have h := wf_disjoint hw
    rwa [leaves_node] at h
  have hL : leaves (BTree.node (.node x y) z)
      = (leaves x ∪ leaves y) ∪ leaves z := by
    rw [leaves_node, leaves_node]
  have hzc : leaves (BTree.node (.node x y) z) \ leaves z
      = leaves x ∪ leaves y := by
    rw [hL]; exact union_sdiff_cancel_right' hdz
  have hxyc : leaves (BTree.node (.node x y) z) \ (leaves x ∪ leaves y)
      = leaves z := by
    rw [hL]; exact union_sdiff_cancel_left' hdz
  ext k
  rw [mem_splitKeys, mem_triKeys]
  constructor
  · rintro ⟨p, hp, hk⟩
    have hp' : p = BTree.node (.node x y) z ∨ p = BTree.node x y ∨
        p ∈ positions x ∨ p ∈ positions y ∨ p ∈ positions z := by
      simp only [positions, List.mem_cons, List.mem_append] at hp
      tauto
    rcases hp' with h | h | h | h | h
    · subst h
      rcases hk with hk | hk
      · exact Or.inl hk
      · refine Or.inr (Or.inl ?_)
        rw [hk, Finset.sdiff_self]
    · subst h
      rcases hk with hk | hk
      · refine Or.inr (Or.inr (Or.inr (Or.inr ?_)))
        rw [mem_partKeys]
        refine ⟨z, self_mem_positions z, Or.inr ?_⟩
        rw [hk, leaves_node, hzc]
      · refine Or.inr (Or.inr (Or.inr (Or.inr ?_)))
        rw [mem_partKeys]
        refine ⟨z, self_mem_positions z, Or.inl ?_⟩
        rw [hk, leaves_node x y]
        exact hxyc
    · exact Or.inr (Or.inr (Or.inl (mem_partKeys.mpr ⟨p, h, hk⟩)))
    · exact Or.inr (Or.inr (Or.inr (Or.inl (mem_partKeys.mpr ⟨p, h, hk⟩))))
    · exact Or.inr (Or.inr (Or.inr (Or.inr (mem_partKeys.mpr ⟨p, h, hk⟩))))
  · have hself : BTree.node (.node x y) z
        ∈ positions (BTree.node (.node x y) z) := self_mem_positions _
    have hmx : ∀ p ∈ positions x,
        p ∈ positions (BTree.node (.node x y) z) := by
      intro p hp
      simp only [positions, List.mem_cons, List.mem_append]
      tauto
    have hmy : ∀ p ∈ positions y,
        p ∈ positions (BTree.node (.node x y) z) := by
      intro p hp
      simp only [positions, List.mem_cons, List.mem_append]
      tauto
    have hmz : ∀ p ∈ positions z,
        p ∈ positions (BTree.node (.node x y) z) := by
      intro p hp
      simp only [positions, List.mem_cons, List.mem_append]
      tauto
    rintro (hk | hk | hk | hk | hk)
    · exact ⟨_, hself, Or.inl hk⟩
    · refine ⟨_, hself, Or.inr ?_⟩
      rw [hk, Finset.sdiff_self]
    · rcases mem_partKeys.mp hk with ⟨p, hp, h⟩
      exact ⟨p, hmx p hp, h⟩
    · rcases mem_partKeys.mp hk with ⟨p, hp, h⟩
      exact ⟨p, hmy p hp, h⟩
    · rcases mem_partKeys.mp hk with ⟨p, hp, h⟩
      exact ⟨p, hmz p hp, h⟩

/-- The split keys of `(x,(y,z))`, same right-hand side. -/
theorem splitKeys_node_node' {x y z : BTree}
    (hw : wf (.node x (.node y z))) :
    splitKeys (.node x (.node y z)) =
      triKeys (leaves (.node x (.node y z))) x y z := by
  have hdx : Disjoint (leaves x) (leaves y ∪ leaves z) := by
    have h := wf_disjoint hw
    rwa [leaves_node] at h
  have hL : leaves (BTree.node x (.node y z))
      = leaves x ∪ (leaves y ∪ leaves z) := by
    rw [leaves_node, leaves_node]
  have hxc : leaves (BTree.node x (.node y z)) \ leaves x
      = leaves y ∪ leaves z := by
    rw [hL]; exact union_sdiff_cancel_left' hdx
  have hyzc : leaves (BTree.node x (.node y z)) \ (leaves y ∪ leaves z)
      = leaves x := by
    rw [hL]; exact union_sdiff_cancel_right' hdx
  ext k
  rw [mem_splitKeys, mem_triKeys]
  constructor
  · rintro ⟨p, hp, hk⟩
    have hp' : p = BTree.node x (.node y z) ∨ p = BTree.node y z ∨
        p ∈ positions x ∨ p ∈ positions y ∨ p ∈ positions z := by
      simp only [positions, List.mem_cons, List.mem_append] at hp
      tauto
    rcases hp' with h | h | h | h | h
    · subst h
      rcases hk with hk | hk
      · exact Or.inl hk
      · refine Or.inr (Or.inl ?_)
        rw [hk, Finset.sdiff_self]
    · subst h
      rcases hk with hk | hk
      · refine Or.inr (Or.inr (Or.inl ?_))
        rw [mem_partKeys]
        refine ⟨x, self_mem_positions x, Or.inr ?_⟩
        rw [hk, leaves_node, hxc]
      · refine Or.inr (Or.inr (Or.inl ?_))
        rw [mem_partKeys]
        refine ⟨x, self_mem_positions x, Or.inl ?_⟩
        rw [hk, leaves_node y z]
        exact hyzc
    · exact Or.inr (Or.inr (Or.inl (mem_partKeys.mpr ⟨p, h, hk⟩)))
    · exact Or.inr (Or.inr (Or.inr (Or.inl (mem_partKeys.mpr ⟨p, h, hk⟩))))
    · exact Or.inr (Or.inr (Or.inr (Or.inr (mem_partKeys.mpr ⟨p, h, hk⟩))))
  · have hself : BTree.node x (.node y z)
        ∈ positions (BTree.node x (.node y z)) := self_mem_positions _
    have hmx : ∀ p ∈ positions x,
        p ∈ positions (BTree.node x (.node y z)) := by
      intro p hp
      simp only [positions, List.mem_cons, List.mem_append]
      tauto
    have hmy : ∀ p ∈ positions y,
        p ∈ positions (BTree.node x (.node y z)) := by
      intro p hp
      simp only [positions, List.mem_cons, List.mem_append]
      tauto
    have hmz : ∀ p ∈ positions z,
        p ∈ positions (BTree.node x (.node y z)) := by
      intro p hp
      simp only [positions, List.mem_cons, List.mem_append]
      tauto
    rintro (hk | hk | hk | hk | hk)
    · exact ⟨_, hself, Or.inl hk⟩
    · refine ⟨_, hself, Or.inr ?_⟩
      rw [hk, Finset.sdiff_self]
    · rcases mem_partKeys.mp hk with ⟨p, hp, h⟩
      exact ⟨p, hmx p hp, h⟩
    · rcases mem_partKeys.mp hk with ⟨p, hp, h⟩
      exact ⟨p, hmy p hp, h⟩
    · rcases mem_partKeys.mp hk with ⟨p, hp, h⟩
      exact ⟨p, hmz p hp, h⟩

theorem triKeys_swap (L : Finset Nat) (x y z : BTree) :
    triKeys L x y z = triKeys L y x z := by
  unfold triKeys
  rw [Finset.union_right_comm {L, ∅} (partKeys L x) (partKeys L y)]

theorem splitKeys_comm (l r : BTree) :
    splitKeys (.node l r) = splitKeys (.node r l) := by
  have hL : leaves (BTree.node l r) = leaves (BTree.node r l) := by
    rw [leaves_node, leaves_node, Finset.union_comm]
  ext k
  rw [mem_splitKeys, mem_splitKeys]
  constructor
  · rintro ⟨p, hp, hk⟩
    have hp' : p = BTree.node l r ∨ p ∈ positions l ∨ p ∈ positions r := by
      simp only [positions, List.mem_cons, List.mem_append] at hp
      tauto
    have hmem : ∀ q : BTree, q = BTree.node r l ∨ q ∈ positions r ∨
        q ∈ positions l → q ∈ positions (BTree.node r l) := by
      intro q hq
      simp only [positions, List.mem_cons, List.mem_append]
      tauto
    rcases hp' with h | h | h
    · subst h
      refine ⟨.node r l, hmem _ (Or.inl rfl), ?_⟩
      rcases hk with hk | hk
      · exact Or.inl (by rw [hk, hL])
      · exact Or.inr (by rw [hk, hL])
    · exact ⟨p, hmem p (Or.inr (Or.inr h)), by rwa [hL] at hk⟩
    · exact ⟨p, hmem p (Or.inr (Or.inl h)), by rwa [hL] at hk⟩
  · rintro ⟨p, hp, hk⟩
    have hp' : p = BTree.node r l ∨ p ∈ positions r ∨ p ∈ positions l := by
      simp only [positions, List.mem_cons, List.mem_append] at hp
      tauto
    have hmem : ∀ q : BTree, q = BTree.node l r ∨ q ∈ positions l ∨
        q ∈ positions r → q ∈ positions (BTree.node l r) := by
      intro q hq
      simp only [positions, List.mem_cons, List.mem_append]
      tauto
    rcases hp' with h | h | h
    · subst h
      refine ⟨.node l r, hmem _ (Or.inl rfl), ?_⟩
      rcases hk with hk | hk
      · exact Or.inl (by rw [hk, hL])
      · exact Or.inr (by rw [hk, hL])
    · exact ⟨p, hmem p (Or.inr (Or.inr h)), by rwa [← hL] at hk⟩
    · exact ⟨p, hmem p (Or.inr (Or.inl h)), by rwa [← hL] at hk⟩

/-- Walking down towards the clade `C` and re-hanging the passed
subtrees preserves the leaf set, the split keys and well-formedness of
the assembled tree, and the found side has clade `C`. -/
theorem rerootGo_spec (t : BTree) :
    ∀ (C : Finset Nat) (up s rest : BTree),
      wf (.node t up) → rerootGo t C up = some (s, rest) →
      leaves (BTree.node s rest) = leaves (.node t up) ∧
      splitKeys (.node s rest) = splitKeys (.node t up) ∧
      wf (.node s rest) ∧ leaves s = C := by
  induction t with
  | leaf a =>
    intro C up s rest hw h
    rw [rerootGo] at h
    by_cases hC : leaves (BTree.leaf a) = C
    · rw [if_pos hC] at h
      obtain ⟨rfl, rfl⟩ : BTree.leaf a = s ∧ up = rest := by
        have := Option.some.inj h
        exact ⟨congrArg Prod.fst this, congrArg Prod.snd this⟩
      exact ⟨rfl, rfl, hw, hC⟩
    · rw [if_neg hC] at h
      exact absurd h (by simp)
  | node l r ihl ihr =>
    intro C up s rest hw h
    rw [rerootGo] at h
    by_cases hC : leaves (BTree.node l r) = C
    · rw [if_pos hC] at h
      obtain ⟨rfl, rfl⟩ : BTree.node l r = s ∧ up = rest := by
        have := Option.some.inj h
        exact ⟨congrArg Prod.fst this, congrArg Prod.snd this⟩
      exact ⟨rfl, rfl, hw, hC⟩
    · rw [if_neg hC] at h
      by_cases hl : C ⊆ leaves l
      · rw [if_pos hl] at h
        have hw' : wf (.node l (.node r up)) := by
          unfold wf at hw ⊢
          simpa [leavesList, List.append_assoc] using hw
        obtain ⟨h1, h2, h3, h4⟩ := ihl C (.node r up) s rest hw' h
        have hLeq : leaves (BTree.node l (.node r up))
            = leaves (BTree.node (.node l r) up) := by
          simp [leaves_node, Finset.union_assoc]
        refine ⟨h1.trans hLeq, ?_, h3, h4⟩
        rw [h2, splitKeys_node_node' hw', splitKeys_node_node hw, hLeq]
      · rw [if_neg hl] at h
        by_cases hr : C ⊆ leaves r
        · rw [if_pos hr] at h
          have hperm : (leavesList (.node (.node l r) up)).Perm
              (leavesList (.node r (.node l up))) := by
            simp only [leavesList]
            have h1 : ((leavesList l ++ leavesList r) ++ leavesList up).Perm
                ((leavesList r ++ leavesList l) ++ leavesList up) :=
              List.perm_append_comm.append_right _
            have h2 : (leavesList r ++ leavesList l) ++ leavesList up
                = leavesList r ++ (leavesList l ++ leavesList up) := by
              rw [List.append_assoc]
            rw [h2] at h1
            exact h1
          have hw' : wf (.node r (.node l up)) := hperm.nodup hw
          obtain ⟨h1, h2, h3, h4⟩ := ihr C (.node l up) s rest hw' h
          have hLeq : leaves (BTree.node r (.node l up))
              = leaves (BTree.node (.node l r) up) := by
            simp only [leaves_node]
            rw [← Finset.union_assoc, Finset.union_comm (leaves r) (leaves l)]
          refine ⟨h1.trans hLeq, ?_, h3, h4⟩
          rw [h2, splitKeys_node_node' hw', splitKeys_node_node hw, hLeq,
            triKeys_swap]
        · rw [if_neg hr] at h
          exact absurd h (by simp)

theorem rerootCore_spec {T : BTree} {C : Finset Nat} {s rest : BTree}
    (hw : wf T) (h : rerootCore T C = some (s, rest)) :
    leaves (BTree.node s rest) = leaves T ∧
    splitKeys (.node s rest) = splitKeys T ∧
    wf (.node s rest) ∧ leaves s = C := by
  cases T with
  | leaf a => exact absurd h (by simp [rerootCore])
  | node l r =>
    rw [rerootCore] at h
    by_cases hl : C ⊆ leaves l
    · rw [if_pos hl] at h
      exact rerootGo_spec l C r s rest hw h
    · rw [if_neg hl] at h
      by_cases hr : C ⊆ leaves r
      · rw [if_pos hr] at h
        have hwc : wf (.node r l) := by
          unfold wf at hw ⊢
          exact (List.perm_append_comm).nodup hw
        obtain ⟨h1, h2, h3, h4⟩ := rerootGo_spec r C l s rest hwc h
        have hLeq : leaves (BTree.node r l) = leaves (BTree.node l r) := by
          rw [leaves_node, leaves_node, Finset.union_comm]
        exact ⟨h1.trans hLeq, h2.trans (splitKeys_comm r l), h3, h4⟩
      · rw [if_neg hr] at h
        exact absurd h (by simp)

/-- `extract_nodes_from_split` preserves the unrooted topology: the
rerooted tree has the same leaf set and split keys, remains
well-formed, and the found node's clade is the requested one. -/
theorem extract_spec {T : BTree} {C : Finset Nat} {tr n : BTree}
    (hw : wf T) (h : extract_nodes_from_split T C = some (tr, n)) :
    leaves tr = leaves T ∧ splitKeys tr = splitKeys T ∧ wf tr ∧
      leaves n = C := by
  unfold extract_nodes_from_split at h
  cases hc : rerootCore T C with
  | some sr =>
    rw [hc] at h
    obtain ⟨rfl, rfl⟩ : BTree.node sr.1 sr.2 = tr ∧ sr.1 = n := by
      have := Option.some.inj h
      exact ⟨congrArg Prod.fst this, congrArg Prod.snd this⟩
    obtain ⟨h1, h2, h3, h4⟩ := rerootCore_spec hw hc
    exact ⟨h1, h2, h3, h4⟩
  | none =>
    rw [hc] at h
    cases hc2 : rerootCore T (leaves T \ C) with
    | none => rw [hc2] at h; exact absurd h (by simp)
    | some sr =>
      obtain ⟨s1, s2⟩ := sr
      rw [hc2] at h
      simp only at h
      by_cases hrest : leaves s2 = C
      · rw [if_pos hrest] at h
        obtain ⟨rfl, rfl⟩ : BTree.node s1 s2 = tr ∧ s2 = n := by
          have := Option.some.inj h
          exact ⟨congrArg Prod.fst this, congrArg Prod.snd this⟩
        obtain ⟨h1, h2, h3, _⟩ := rerootCore_spec hw hc2
        exact ⟨h1, h2, h3, hrest⟩
      · rw [if_neg hrest] at h
        exact absurd h (by simp)

/-- `present` only reads the leaf set and the split keys. -/
theorem present_congr {t t' : BTree} (hl : leaves t = leaves t')
    (hs : splitKeys t = splitKeys t') (C : Finset Nat) :
    present t C = present t' C := by
  unfold present
  rw [hl, hs]

/-! ## Presence, siblinghood, and the oracle/editor correspondence -/

theorem present_subset {t : BTree} {C : Finset Nat}
    (h : present t C = true) : C ⊆ leaves t := by
  unfold present at h
  rcases Bool.or_eq_true_iff.mp h with h1 | h1
  · rw [decide_eq_true_eq.mp h1]
  · exact decide_eq_true_eq.mp (Bool.and_eq_true_iff.mp h1).1

theorem not_sibling_of_not_present {t : BTree} {A B : Finset Nat}
    (hA : present t A = true) (hB : present t B = true)
    (hno : present t (A ∪ B) = false) : ¬ sibling_clades t A B := by
  intro hs
  have hsubs : A ∪ B ⊆ leaves t :=
    Finset.union_subset (present_subset hA) (present_subset hB)
  unfold present at hno
  rcases Bool.or_eq_false_iff.mp hno with ⟨h1, h2⟩
  rcases Bool.and_eq_false_iff.mp h2 with h3 | h3
  · exact (decide_eq_false_iff_not.mp h3) hsubs
  · rcases hs with h | h
    · exact (decide_eq_false_iff_not.mp h1) h
    · exact (decide_eq_false_iff_not.mp h3) h

theorem sibling_congr {t t' : BTree} (hl : leaves t = leaves t')
    (hs : splitKeys t = splitKeys t') {A B : Finset Nat} :
    sibling_clades t A B ↔ sibling_clades t' A B := by
  unfold sibling_clades
  rw [hl, hs]

theorem joinOne_elim {tx : BTree} {Cx : Finset Nat} {ty : BTree}
    {Cy : Finset Nat} {txr t2' : BTree}
    (h : join_nodes_in_one_tree tx Cx ty Cy = some (txr, t2')) :
    ∃ nx tyr ny, extract_nodes_from_split tx Cx = some (txr, nx) ∧
      extract_nodes_from_split ty Cy = some (tyr, ny) ∧
      t2' = .node nx tyr := by
  unfold join_nodes_in_one_tree at h
  cases h1 : extract_nodes_from_split tx Cx with
  | none => rw [h1] at h; simp at h
  | some p1 =>
    obtain ⟨a1, n1⟩ := p1
    rw [h1] at h
    cases h2 : extract_nodes_from_split ty Cy with
    | none => rw [h2] at h; simp at h
    | some p2 =>
      obtain ⟨a2, n2⟩ := p2
      rw [h2] at h
      have h5 := Option.some.inj h
      obtain ⟨h6, h7⟩ : a1 = txr ∧ BTree.node n1 a2 = t2' :=
        ⟨congrArg Prod.fst h5, congrArg Prod.snd h5⟩
      subst h6
      subst h7
      exact ⟨n1, a2, n2, rfl, rfl, rfl⟩

theorem jnbt_test_elim {t1 nA : BTree} {A : Finset Nat} {t2 nB : BTree}
    {B : Finset Nat} {t1' t2' : BTree}
    (h : join_nodes_in_both_trees t1 nA A t2 nB B true
      = some (some t1', some t2')) :
    A ≠ leaves t1 ∧ B ≠ leaves t2 ∧
    ∃ t1r nA' t2r nB', extract_nodes_from_split t1 A = some (t1r, nA') ∧
      extract_nodes_from_split t2 B = some (t2r, nB') ∧
      t1' = .node t1r nB' ∧ t2' = .node t2r nA' := by
  unfold join_nodes_in_both_trees at h
  by_cases h1 : A = leaves t1 ∧ B = leaves t2
  · rw [if_pos h1] at h; simp at h
  · rw [if_neg h1] at h
    by_cases h2 : A = leaves t1
    · rw [if_pos h2] at h; simp at h
    · rw [if_neg h2] at h
      by_cases h3 : B = leaves t2
      · rw [if_pos h3] at h; simp at h
      · rw [if_neg h3] at h
        refine ⟨h2, h3, ?_⟩
        cases e1 : extract_nodes_from_split t1 A with
        | none => rw [e1] at h; simp at h
        | some p1 =>
          obtain ⟨t1r, nA'⟩ := p1
          rw [e1] at h
          cases e2 : extract_nodes_from_split t2 B with
          | none => rw [e2] at h; simp at h
          | some p2 =>
            obtain ⟨t2r, nB'⟩ := p2
            rw [e2] at h
            have h5 := Option.some.inj h
            refine ⟨t1r, nA', t2r, nB', rfl, rfl, ?_, ?_⟩
            · exact (Option.some.inj (congrArg Prod.fst h5)).symm
            · exact (Option.some.inj (congrArg Prod.snd h5)).symm

theorem jnbt_real_of_extracts {t1 nA : BTree} {A : Finset Nat}
    {t2 nB : BTree} {B : Finset Nat} {t1r nA' t2r nB' : BTree}
    (h2 : A ≠ leaves t1) (h3 : B ≠ leaves t2)
    (e1 : extract_nodes_from_split t1 A = some (t1r, nA'))
    (e2 : extract_nodes_from_split t2 B = some (t2r, nB')) :
    join_nodes_in_both_trees t1 nA A t2 nB B false =
      some (some (.node t1r nB'), some (.node t2r nA')) := by
  unfold join_nodes_in_both_trees
  rw [if_neg (fun hc => h2 hc.1), if_neg h2, if_neg h3, e1, e2]

theorem incompat_elim {u v : BTree}
    (h : are_two_trees_incompatible u v = true) :
    osplitKeys (restrict u (leaves u ∩ leaves v)) ≠
      osplitKeys (restrict v (leaves u ∩ leaves v)) := by
  simp only [are_two_trees_incompatible] at h
  by_cases hc : (leaves u ∩ leaves v).card < 4
  · rw [if_pos hc] at h; exact absurd h (by simp)
  · rw [if_neg hc] at h; simpa using h

theorem some_triple_inj {ot1 ot2 a b : Option BTree} {ed c : Bool}
    (h : (some (a, b, c) : Option (Option BTree × Option BTree × Bool))
      = some (ot1, ot2, ed)) :
    ot1 = a ∧ ot2 = b ∧ ed = c := by
  have h' := Option.some.inj h
  exact ⟨(congrArg Prod.fst h').symm,
    (congrArg (fun x => x.2.1) h').symm,
    (congrArg (fun x => x.2.2) h').symm⟩

/-- Claim C4: every rejection of `test_join` is justified.  If the
oracle rejects the live pair with clades `A`, `B` (for well-formed
constraint trees), then committing the join through `join_nodes` either
raises, or produces trees among which some tree contains both clades
without `A ∪ B` being one of its splits (so `A` and `B` are not siblings
there under any rooting), or produces a pair of trees whose unrooted
split sets on their shared leaf set differ. -/
theorem claim_C4 (t1 t2 : BTree) (A B : Finset Nat) (nA nB : BTree)
    (hw1 : wf t1) (hw2 : wf t2)
    (hrej : test_join t1 t2 A B = some true) :
    join_nodes t1 t2 A B nA nB = none ∨
    ∃ ot1 ot2 ed, join_nodes t1 t2 A B nA nB = some (ot1, ot2, ed) ∧
      ((∃ t, (ot1 = some t ∨ ot2 = some t) ∧ present t A = true ∧
          present t B = true ∧ ¬ sibling_clades t A B) ∨
        (∃ u v, ot1 = some u ∧ ot2 = some v ∧
          osplitKeys (restrict u (leaves u ∩ leaves v)) ≠
            osplitKeys (restrict v (leaves u ∩ leaves v)))) := by
  by_cases hAB : (A ∩ B).Nonempty
  · simp only [test_join, if_pos hAB] at hrej
    exact absurd hrej (by simp)
  · simp only [test_join, if_neg hAB] at hrej
    cases hjn : join_nodes t1 t2 A B nA nB with
    | none => exact Or.inl rfl
    | some res =>
      obtain ⟨ot1, ot2, ed⟩ := res
      refine Or.inr ⟨ot1, ot2, ed, rfl, ?_⟩
      simp only [join_nodes, if_neg hAB] at hjn
      cases ha1 : present t1 A with
      | false =>
        rw [ha1] at hrej hjn
        cases ha2 : present t2 A with
        | false =>
          rw [ha2] at hrej
          simp at hrej
        | true =>
          rw [ha2] at hrej hjn
          simp only [Bool.false_and, Bool.true_and, if_false, Bool.false_eq_true, eq_self_iff_true] at hrej hjn
          cases hb1 : present t1 B with
          | false =>
            rw [hb1] at hrej hjn
            cases hb2 : present t2 B with
            | false =>
              rw [hb2] at hrej
              simp at hrej
            | true =>
              -- Case 9: A and B in T2 only; rejection means A ∪ B is
              -- not a split of T2; the commit leaves both trees alone.
              rw [hb2] at hrej hjn
              simp only [Bool.false_and, Bool.true_and, if_false,
                if_true, Bool.false_eq_true, eq_self_iff_true] at hrej hjn
              simp only [Option.some.injEq] at hrej
              rw [Bool.not_eq_true'] at hrej
              obtain ⟨h1, h2, _⟩ := some_triple_inj hjn
              exact Or.inl ⟨t2, Or.inr h2, ha2, hb2,
                not_sibling_of_not_present ha2 hb2 hrej⟩
          | true =>
            rw [hb1] at hrej hjn
            cases hb2 : present t2 B with
            | false =>
              -- Case 8: A in T2 only, B in T1 only; the rejection is the
              -- simulated merge being incompatible; the real commit
              -- produces exactly the simulated pair.
              rw [hb2] at hrej hjn
              simp only [Bool.true_and, Bool.false_and, Bool.and_false,
                if_false, if_true, Bool.false_eq_true, eq_self_iff_true] at hrej hjn
              cases hsim : join_nodes_in_both_trees t1 t1 B t2 t2 A true with
              | none => rw [hsim] at hrej; simp at hrej
              | some pr =>
                obtain ⟨o1, o2⟩ := pr
                rw [hsim] at hrej
                cases o1 with
                | none => simp at hrej
                | some u =>
                  cases o2 with
                  | none => simp at hrej
                  | some v =>
                    simp only [Option.some.injEq] at hrej
                    obtain ⟨hne1, hne2, t1r, nA', t2r, nB', e1, e2, hu, hv⟩ :=
                      jnbt_test_elim hsim
                    rw [jnbt_real_of_extracts hne1 hne2 e1 e2] at hjn
                    obtain ⟨h1, h2, _⟩ := some_triple_inj hjn
                    refine Or.inr ⟨.node t1r nB', .node t2r nA', h1, h2, ?_⟩
                    have := incompat_elim hrej
                    rw [hu, hv] at this
                    exact this
            | true =>
              -- Case 7: A in T2 only, B in both; rejection: A ∪ B not a
              -- split of T2; the commit reroots T2 (same splits).
              rw [hb2] at hrej hjn
              simp only [Bool.true_and, Bool.and_true, Bool.and_self,
                if_true, Bool.false_eq_true, eq_self_iff_true] at hrej hjn
              simp only [Option.some.injEq] at hrej
              rw [Bool.not_eq_true'] at hrej
              cases hj : join_nodes_in_one_tree t2 A t1 B with
              | none => rw [hj] at hjn; simp at hjn
              | some pr =>
                obtain ⟨t2r, t1'⟩ := pr
                rw [hj] at hjn
                obtain ⟨h1, h2, _⟩ := some_triple_inj hjn
                obtain ⟨nx, tyr, ny, e1, _, _⟩ := joinOne_elim hj
                obtain ⟨hl, hs, _, _⟩ := extract_spec hw2 e1
                refine Or.inl ⟨t2r, Or.inr h2, ?_, ?_, ?_⟩
                · rw [present_congr hl hs]; exact ha2
                · rw [present_congr hl hs]; exact hb2
                · rw [sibling_congr hl hs]
                  exact not_sibling_of_not_present ha2 hb2 hrej
      | true =>
        rw [ha1] at hrej hjn
        cases ha2 : present t2 A with
        | false =>
          rw [ha2] at hrej hjn
          simp only [Bool.true_and, Bool.and_false, if_false,
            if_true, Bool.false_eq_true, eq_self_iff_true] at hrej hjn
          cases hb1 : present t1 B with
          | false =>
            rw [hb1] at hrej hjn
            cases hb2 : present t2 B with
            | false =>
              rw [hb2] at hrej
              simp at hrej
            | true =>
              -- Case 6: A in T1 only, B in T2 only; simulated merge
              -- incompatible; the commit produces the simulated pair.
              rw [hb2] at hrej hjn
              simp only [Bool.false_and, Bool.true_and, if_false,
                if_true, Bool.false_eq_true, eq_self_iff_true] at hrej hjn
              cases hsim : join_nodes_in_both_trees t1 t1 A t2 t2 B true with
              | none => rw [hsim] at hrej; simp at hrej
              | some pr =>
                obtain ⟨o1, o2⟩ := pr
                rw [hsim] at hrej
                cases o1 with
                | none => simp at hrej
                | some u =>
                  cases o2 with
                  | none => simp at hrej
                  | some v =>
                    simp only [Option.some.injEq] at hrej
                    obtain ⟨hne1, hne2, t1r, nA', t2r, nB', e1, e2, hu, hv⟩ :=
                      jnbt_test_elim hsim
                    rw [jnbt_real_of_extracts hne1 hne2 e1 e2] at hjn
                    obtain ⟨h1, h2, _⟩ := some_triple_inj hjn
                    refine Or.inr ⟨.node t1r nB', .node t2r nA', h1, h2, ?_⟩
                    have := incompat_elim hrej
                    rw [hu, hv] at this
                    exact this
          | true =>
            rw [hb1] at hrej hjn
            cases hb2 : present t2 B with
            | false =>
              -- Case 5: A and B in T1 only; rejection: A ∪ B not a split
              -- of T1; the commit leaves both trees alone.
              rw [hb2] at hrej hjn
              simp only [Bool.true_and, Bool.and_false, if_false,
                if_true, Bool.false_eq_true, eq_self_iff_true] at hrej hjn
              simp only [Option.some.injEq] at hrej
              rw [Bool.not_eq_true'] at hrej
              obtain ⟨h1, h2, _⟩ := some_triple_inj hjn
              exact Or.inl ⟨t1, Or.inl h1, ha1, hb1,
                not_sibling_of_not_present ha1 hb1 hrej⟩
            | true =>
              -- Case 4: A in T1 only, B in both; rejection: A ∪ B not a
              -- split of T1; the commit reroots T1 (same splits).
              rw [hb2] at hrej hjn
              simp only [Bool.true_and, Bool.and_true, Bool.and_self,
                if_true, Bool.false_eq_true, eq_self_iff_true] at hrej hjn
              simp only [Option.some.injEq] at hrej
              rw [Bool.not_eq_true'] at hrej
              cases hj : join_nodes_in_one_tree t1 A t2 B with
              | none => rw [hj] at hjn; simp at hjn
              | some pr =>
                obtain ⟨t1r, t2'⟩ := pr
                rw [hj] at hjn
                obtain ⟨h1, h2, _⟩ := some_triple_inj hjn
                obtain ⟨nx, tyr, ny, e1, _, _⟩ := joinOne_elim hj
                obtain ⟨hl, hs, _, _⟩ := extract_spec hw1 e1
                refine Or.inl ⟨t1r, Or.inl h1, ?_, ?_, ?_⟩
                · rw [present_congr hl hs]; exact ha1
                · rw [present_congr hl hs]; exact hb1
                · rw [sibling_congr hl hs]
                  exact not_sibling_of_not_present ha1 hb1 hrej
        | true =>
          rw [ha2] at hrej hjn
          simp only [Bool.true_and, Bool.and_self, if_true, Bool.false_eq_true, eq_self_iff_true] at hrej hjn
          cases hb1 : present t1 B with
          | false =>
            rw [hb1] at hrej hjn
            cases hb2 : present t2 B with
            | false =>
              rw [hb2] at hrej
              simp at hrej
            | true =>
              -- Case 3: A in both, B in T2 only; rejection: A ∪ B not a
              -- split of T2; the commit reroots T2 (same splits).
              rw [hb2] at hrej hjn
              simp only [Bool.false_and, Bool.true_and, if_false,
                if_true, Bool.false_eq_true, eq_self_iff_true] at hrej hjn
              simp only [Option.some.injEq] at hrej
              rw [Bool.not_eq_true'] at hrej
              cases hj : join_nodes_in_one_tree t2 B t1 A with
              | none => rw [hj] at hjn; simp at hjn
              | some pr =>
                obtain ⟨t2r, t1'⟩ := pr
                rw [hj] at hjn
                obtain ⟨h1, h2, _⟩ := some_triple_inj hjn
                obtain ⟨nx, tyr, ny, e1, _, _⟩ := joinOne_elim hj
                obtain ⟨hl, hs, _, _⟩ := extract_spec hw2 e1
                refine Or.inl ⟨t2r, Or.inr h2, ?_, ?_, ?_⟩
                · rw [present_congr hl hs]; exact ha2
                · rw [present_congr hl hs]; exact hb2
                · rw [sibling_congr hl hs]
                  exact not_sibling_of_not_present ha2 hb2 hrej
          | true =>
            rw [hb1] at hrej hjn
            cases hb2 : present t2 B with
            | false =>
              -- Case 2: A in both, B in T1 only; rejection: A ∪ B not a
              -- split of T1; the commit reroots T1 (same splits).
              rw [hb2] at hrej hjn
              simp only [Bool.true_and, Bool.and_false, if_false,
                if_true, Bool.false_eq_true, eq_self_iff_true] at hrej hjn
              simp only [Option.some.injEq] at hrej
              rw [Bool.not_eq_true'] at hrej
              cases hj : join_nodes_in_one_tree t1 B t2 A with
              | none => rw [hj] at hjn; simp at hjn
              | some pr =>
                obtain ⟨t1r, t2'⟩ := pr
                rw [hj] at hjn
                obtain ⟨h1, h2, _⟩ := some_triple_inj hjn
                obtain ⟨nx, tyr, ny, e1, _, _⟩ := joinOne_elim hj
                obtain ⟨hl, hs, _, _⟩ := extract_spec hw1 e1
                refine Or.inl ⟨t1r, Or.inl h1, ?_, ?_, ?_⟩
                · rw [present_congr hl hs]; exact ha1
                · rw [present_congr hl hs]; exact hb1
                · rw [sibling_congr hl hs]
                  exact not_sibling_of_not_present ha1 hb1 hrej
            | true =>
              -- Case 1: everything present; rejection means A ∪ B fails
              -- to be a split in T1 or in T2; commit leaves both alone.
              rw [hb2] at hrej hjn
              simp only [Bool.true_and, Bool.and_self, if_true, Bool.false_eq_true, eq_self_iff_true] at hrej hjn
              simp only [Option.some.injEq] at hrej
              obtain ⟨h1, h2, _⟩ := some_triple_inj hjn
              rcases Bool.or_eq_true_iff.mp hrej with hp | hp
              · rw [Bool.not_eq_true'] at hp
                exact Or.inl ⟨t1, Or.inl h1, ha1, hb1,
                  not_sibling_of_not_present ha1 hb1 hp⟩
              · rw [Bool.not_eq_true'] at hp
                exact Or.inl ⟨t2, Or.inr h2, ha2, hb2,
                  not_sibling_of_not_present ha2 hb2 hp⟩

/-- C4 witness: for `T1 = ((0,1),(2,3))`, `T2 = (4)`, the oracle rejects
the pair with clades `{0}`, `{2}` (case 5: `{0,2}` is not a split of
`T1`), and the conclusion holds at this rejection. -/
theorem claim_C4_witness :
    test_join exT4 (.leaf 4) {0} {2} = some true ∧
    (join_nodes exT4 (.leaf 4) {0} {2} (.leaf 0) (.leaf 2) = none ∨
      ∃ ot1 ot2 ed, join_nodes exT4 (.leaf 4) {0} {2} (.leaf 0) (.leaf 2)
          = some (ot1, ot2, ed) ∧
        ((∃ t, (ot1 = some t ∨ ot2 = some t) ∧ present t {0} = true ∧
            present t {2} = true ∧ ¬ sibling_clades t {0} {2}) ∨
          (∃ u v, ot1 = some u ∧ ot2 = some v ∧
            osplitKeys (restrict u (leaves u ∩ leaves v)) ≠
              osplitKeys (restrict v (leaves u ∩ leaves v))))) :=
  ⟨by decide,
    claim_C4 exT4 (.leaf 4) {0} {2} (.leaf 0) (.leaf 2)
      (by decide) (by decide) (by decide)⟩

/-! ## Claim C10: fewer than four shared taxa never reject -/

/-- C10: `are_two_trees_incompatible` returns `False` whenever the two
trees share fewer than 4 taxa (no split comparison is performed, the
guard short-circuits); consequently, in oracle cases 6 and 8 (the clade
`A` present only in one tree and `B` only in the other), a proposed
cross-tree join whose simulated merged trees share fewer than 4 leaves
-- or whose simulation is cut short by the whole-tree shortcut -- is
never rejected by `test_join`. -/
theorem claim_C10 :
    (∀ u v : BTree, (leaves u ∩ leaves v).card < 4 →
      are_two_trees_incompatible u v = false) ∧
    (∀ (t1 t2 : BTree) (A B : Finset Nat), ¬ (A ∩ B).Nonempty →
      present t1 A = true → present t2 A = false →
      present t1 B = false → present t2 B = true →
      (join_nodes_in_both_trees t1 t1 A t2 t2 B true = some (none, none) ∨
        ∃ u v, join_nodes_in_both_trees t1 t1 A t2 t2 B true
            = some (some u, some v) ∧ (leaves u ∩ leaves v).card < 4) →
      test_join t1 t2 A B = some false) ∧
    (∀ (t1 t2 : BTree) (A B : Finset Nat), ¬ (A ∩ B).Nonempty →
      present t1 A = false → present t2 A = true →
      present t1 B = true → present t2 B = false →
      (join_nodes_in_both_trees t1 t1 B t2 t2 A true = some (none, none) ∨
        ∃ u v, join_nodes_in_both_trees t1 t1 B t2 t2 A true
            = some (some u, some v) ∧ (leaves u ∩ leaves v).card < 4) →
      test_join t1 t2 A B = some false) := by
  have hbase : ∀ u v : BTree, (leaves u ∩ leaves v).card < 4 →
      are_two_trees_incompatible u v = false := by
    intro u v h
    simp only [are_two_trees_incompatible]
    rw [if_pos h]
  refine ⟨hbase, ?_, ?_⟩
  · intro t1 t2 A B hAB hA1 hA2 hB1 hB2 hsim
    simp only [test_join, if_neg hAB]
    rw [hA1, hA2, hB1, hB2]
    simp only [Bool.true_and, Bool.and_false, Bool.false_and,
      Bool.false_eq_true, eq_self_iff_true, if_true, if_false]
    rcases hsim with hsim | ⟨u, v, hsim, hcard⟩
    · rw [hsim]
    · rw [hsim]
      show some (are_two_trees_incompatible u v) = some false
      rw [hbase u v hcard]
  · intro t1 t2 A B hAB hA1 hA2 hB1 hB2 hsim
    simp only [test_join, if_neg hAB]
    rw [hA1, hA2, hB1, hB2]
    simp only [Bool.true_and, Bool.and_false, Bool.false_and,
      Bool.and_true, Bool.false_eq_true, eq_self_iff_true, if_true,
      if_false]
    rcases hsim with hsim | ⟨u, v, hsim, hcard⟩
    · rw [hsim]
    · rw [hsim]
      show some (are_two_trees_incompatible u v) = some false
      rw [hbase u v hcard]

/-- C10 witness: for the cherries `T1 = (0,1)`, `T2 = (2,3)` and the
cross pair with clades `{0}`, `{2}`, the simulated merged trees share
only `{0,2}` and the oracle accepts. -/
theorem claim_C10_witness :
    test_join exT01 exT23 {0} {2} = some false :=
  claim_C10.2.1 exT01 exT23 {0} {2} (by decide) (by decide) (by decide)
    (by decide) (by decide)
    (Or.inr ⟨.node (.node (.leaf 0) (.leaf 1)) (.leaf 2),
      .node (.node (.leaf 2) (.leaf 3)) (.leaf 0), by decide, by decide⟩)

/-! ## Claim C2: the scan commits the Q-minimal accepted pair -/

theorem pairLexLe_refl (a : (Nat × BTree) × (Nat × BTree)) :
    pairLexLe a a := Or.inr ⟨rfl, le_refl _⟩

theorem pairLexLt_not_le {a b : (Nat × BTree) × (Nat × BTree)}
    (h : pairLexLt a b) : ¬ pairLexLe b a := by
  unfold pairLexLt at h
  unfold pairLexLe
  omega

theorem mem_pairsList {a b : α} :
    ∀ {l : List α}, (a, b) ∈ pairsList l → a ∈ l ∧ b ∈ l := by
  intro l
  induction l with
  | nil => intro h; simp [pairsList] at h
  | cons x xs ih =>
    intro h
    simp only [pairsList, List.mem_append, List.mem_map] at h
    rcases h with ⟨y, hy, he⟩ | h
    · obtain ⟨h1, h2⟩ : x = a ∧ y = b :=
        ⟨congrArg Prod.fst he, congrArg Prod.snd he⟩
      subst h1; subst h2
      exact ⟨List.mem_cons_self _ _, List.mem_cons_of_mem _ hy⟩
    · obtain ⟨h1, h2⟩ := ih h
      exact ⟨List.mem_cons_of_mem _ h1, List.mem_cons_of_mem _ h2⟩

theorem pairwise_enumFrom (l : List BTree) :
    ∀ k, List.Pairwise (fun a b => a.1 < b.1) (List.enumFrom k l) := by
  induction l with
  | nil => intro k; simp
  | cons x xs ih =>
    intro k
    rw [List.enumFrom]
    refine List.Pairwise.cons ?_ (ih (k + 1))
    intro p hp
    have : k + 1 ≤ p.1 := by
      obtain ⟨i, y⟩ := p
      exact (List.le_fst_of_mem_enumFrom hp)
    omega

theorem pairsList_pairwise :
    ∀ {l : List (Nat × BTree)}, List.Pairwise (fun a b => a.1 < b.1) l →
      List.Pairwise pairLexLt (pairsList l) := by
  intro l
  induction l with
  | nil => intro _; simp [pairsList]
  | cons x xs ih =>
    intro h
    rw [List.pairwise_cons] at h
    obtain ⟨hx, hxs⟩ := h
    rw [pairsList, List.pairwise_append]
    refine ⟨?_, ih hxs, ?_⟩
    · rw [List.pairwise_map]
      exact hxs.imp fun hab => Or.inr ⟨rfl, hab⟩
    · intro p hp q hq
      rcases List.mem_map.mp hp with ⟨y, _, hpe⟩
      obtain ⟨u, v⟩ := q
      have hu : u ∈ xs := (mem_pairsList hq).1
      have hfst : p.1 = x := by rw [← hpe]
      unfold pairLexLt
      rw [hfst]
      exact Or.inl (hx u hu)

theorem pairwise_enumPairs (pool : List BTree) :
    List.Pairwise pairLexLt (enumPairs pool) :=
  pairsList_pairwise (pairwise_enumFrom pool 0)

theorem bestPair_drop_head
    {qv : (Nat × BTree) × (Nat × BTree) → ℚ}
    {b p0 c : (Nat × BTree) × (Nat × BTree)}
    {ps : List ((Nat × BTree) × (Nat × BTree))}
    (hbp0 : pairLexLt b p0) (hlt : qv p0 < qv b) :
    bestPair qv (p0 :: ps) c ↔ bestPair qv (b :: p0 :: ps) c := by
  constructor
  · rintro ⟨hmem, hall⟩
    refine ⟨List.mem_cons_of_mem _ hmem, ?_⟩
    intro p hp
    rcases List.mem_cons.mp hp with rfl | hp
    · have hc := hall p0 (List.mem_cons_self _ _)
      rcases hc with hc | hc
      · exact Or.inl (hc.trans hlt)
      · exact Or.inl (hc.1 ▸ hlt)
    · exact hall p hp
  · rintro ⟨hmem, hall⟩
    have hcb : c ≠ b := by
      rintro rfl
      have h := hall p0 (List.mem_cons_of_mem _ (List.mem_cons_self _ _))
      rcases h with h | h
      · exact absurd hlt (lt_asymm h)
      · exact absurd hlt (h.1 ▸ lt_irrefl _)
    refine ⟨?_, fun p hp => hall p (List.mem_cons_of_mem _ hp)⟩
    rcases List.mem_cons.mp hmem with rfl | hmem
    · exact absurd rfl hcb
    · exact hmem

theorem bestPair_drop_mid
    {qv : (Nat × BTree) × (Nat × BTree) → ℚ}
    {b p0 c : (Nat × BTree) × (Nat × BTree)}
    {ps : List ((Nat × BTree) × (Nat × BTree))}
    (hbp0 : pairLexLt b p0) (hbps : ∀ x ∈ ps, pairLexLt b x)
    (hge : ¬ qv p0 < qv b) :
    bestPair qv (b :: ps) c ↔ bestPair qv (b :: p0 :: ps) c := by
  have hble : qv b ≤ qv p0 := le_of_not_lt hge
  constructor
  · rintro ⟨hmem, hall⟩
    have hcb : c = b ∨ (c ∈ ps ∧ qv c < qv b) := by
      rcases List.mem_cons.mp hmem with rfl | hm
      · exact Or.inl rfl
      · rcases hall b (List.mem_cons_self _ _) with h | h
        · exact Or.inr ⟨hm, h⟩
        · exact absurd h.2 (pairLexLt_not_le (hbps c hm))
    refine ⟨?_, ?_⟩
    · rcases List.mem_cons.mp hmem with rfl | hm
      · exact List.mem_cons_self _ _
      · exact List.mem_cons_of_mem _ (List.mem_cons_of_mem _ hm)
    · intro p hp
      rcases List.mem_cons.mp hp with rfl | hp
      · exact hall p (List.mem_cons_self _ _)
      · rcases List.mem_cons.mp hp with rfl | hp
        · rcases hcb with rfl | ⟨_, hclt⟩
          · rcases lt_or_eq_of_le hble with h | h
            · exact Or.inl h
            · exact Or.inr ⟨h, Or.imp_right (fun hh => ⟨hh.1, le_of_lt hh.2⟩)
                hbp0⟩
          · exact Or.inl (lt_of_lt_of_le hclt hble)
        · exact hall p (List.mem_cons_of_mem _ hp)
  · rintro ⟨hmem, hall⟩
    have hcp0 : c ≠ p0 := by
      rintro rfl
      rcases hall b (List.mem_cons_self _ _) with h | h
      · exact hge h
      · exact absurd h.2 (pairLexLt_not_le hbp0)
    refine ⟨?_, ?_⟩
    · rcases List.mem_cons.mp hmem with rfl | hm
      · exact List.mem_cons_self _ _
      · rcases List.mem_cons.mp hm with rfl | hm
        · exact absurd rfl hcp0
        · exact List.mem_cons_of_mem _ hm
    · intro p hp
      rcases List.mem_cons.mp hp with rfl | hp
      · exact hall p (List.mem_cons_self _ _)
      · exact hall p (List.mem_cons_of_mem _ (List.mem_cons_of_mem _ hp))

theorem qminFold_cons_char (qv : (Nat × BTree) × (Nat × BTree) → ℚ) :
    ∀ (l : List ((Nat × BTree) × (Nat × BTree)))
      (b : (Nat × BTree) × (Nat × BTree)),
      List.Pairwise pairLexLt (b :: l) →
      ∀ (m : ℚ) (c : (Nat × BTree) × (Nat × BTree)),
        (qminFold qv l (some (qv b, b)) = some (m, c) ↔
          (m = qv c ∧ bestPair qv (b :: l) c)) := by
  intro l
  induction l with
  | nil =>
    intro b _ m c
    constructor
    · intro h
      have h' := Option.some.inj h
      obtain ⟨hm, hc⟩ : qv b = m ∧ b = c :=
        ⟨congrArg Prod.fst h', congrArg Prod.snd h'⟩
      subst hc
      refine ⟨hm.symm, List.mem_singleton_self _, ?_⟩
      intro p hp
      rcases List.mem_singleton.mp hp with rfl
      exact Or.inr ⟨rfl, pairLexLe_refl _⟩
    · rintro ⟨hm, hmem, _⟩
      rcases List.mem_singleton.mp hmem with rfl
      rw [qminFold, hm]
  | cons p0 ps ih =>
    intro b hpw m c
    have hb0 : pairLexLt b p0 :=
      (List.pairwise_cons.mp hpw).1 p0 (List.mem_cons_self _ _)
    have hbps : ∀ x ∈ ps, pairLexLt b x := fun x hx =>
      (List.pairwise_cons.mp hpw).1 x (List.mem_cons_of_mem _ hx)
    have hps : List.Pairwise pairLexLt (p0 :: ps) :=
      (List.pairwise_cons.mp hpw).2
    simp only [qminFold]
    by_cases hlt : qv p0 < qv b
    · rw [if_pos hlt, ih p0 hps m c]
      exact and_congr_right fun _ => bestPair_drop_head hb0 hlt
    · rw [if_neg hlt]
      have hbl : List.Pairwise pairLexLt (b :: ps) :=
        List.pairwise_cons.mpr ⟨hbps, (List.pairwise_cons.mp hps).2⟩
      rw [ih b hbl m c]
      exact and_congr_right fun _ => bestPair_drop_mid hb0 hbps hlt

theorem qminFold_none_char (qv : (Nat × BTree) × (Nat × BTree) → ℚ)
    {l : List ((Nat × BTree) × (Nat × BTree))}
    (hpw : List.Pairwise pairLexLt l) (m : ℚ)
    (c : (Nat × BTree) × (Nat × BTree)) :
    qminFold qv l none = some (m, c) ↔ (m = qv c ∧ bestPair qv l c) := by
  cases l with
  | nil =>
    constructor
    · intro h; simp [qminFold] at h
    · rintro ⟨_, hmem, _⟩; simp at hmem
  | cons p0 ps =>
    simp only [qminFold]
    exact qminFold_cons_char qv ps p0 hpw m c

theorem scanGo_eq_qminFold (q : BTree → BTree → ℚ)
    (orc : BTree → BTree → Option Bool) :
    ∀ (l : List ((Nat × BTree) × (Nat × BTree)))
      (s : Option (ℚ × (Nat × BTree) × (Nat × BTree))),
      (∀ p ∈ l, (orc p.1.2 p.2.2).isSome = true) →
      scanGo q orc l s = .ok (qminFold (fun p => q p.1.2 p.2.2)
        (l.filter fun p => decide (orc p.1.2 p.2.2 = some false)) s) := by
  intro l
  induction l with
  | nil => intro s _; rfl
  | cons p ps ih =>
    intro s htot
    have hp : (orc p.1.2 p.2.2).isSome = true :=
      htot p (List.mem_cons_self _ _)
    have htot' : ∀ x ∈ ps, (orc x.1.2 x.2.2).isSome = true := fun x hx =>
      htot x (List.mem_cons_of_mem _ hx)
    rcases Option.isSome_iff_exists.mp hp with ⟨bv, hbv⟩
    simp only [scanGo]
    rw [List.filter_cons, hbv]
    cases bv with
    | true =>
      have hfil : (if (decide ((some true : Option Bool) = some false))
            = true
          then p :: List.filter
            (fun x => decide (orc x.1.2 x.2.2 = some false)) ps
          else List.filter
            (fun x => decide (orc x.1.2 x.2.2 = some false)) ps)
          = List.filter
            (fun x => decide (orc x.1.2 x.2.2 = some false)) ps := by
        simp
      rw [hfil]
      by_cases hcond : (match s with
          | none => true
          | some b => decide (q p.1.2 p.2.2 < b.1)) = true
      · rw [if_pos hcond]
        exact ih s htot'
      · rw [if_neg hcond]
        exact ih s htot'
    | false =>
      have hfil : (if (decide ((some false : Option Bool) = some false))
            = true
          then p :: List.filter
            (fun x => decide (orc x.1.2 x.2.2 = some false)) ps
          else List.filter
            (fun x => decide (orc x.1.2 x.2.2 = some false)) ps)
          = p :: List.filter
            (fun x => decide (orc x.1.2 x.2.2 = some false)) ps := by
        simp
      rw [hfil]
      simp only [qminFold]
      cases s with
      | none =>
        rw [if_pos rfl]
        exact ih (some (q p.1.2 p.2.2, p)) htot'
      | some b =>
        by_cases hq : q p.1.2 p.2.2 < b.1
        · rw [if_pos (decide_eq_true hq)]
          have hst : (match (some b : Option (ℚ × (Nat × BTree) × (Nat × BTree))) with
              | none => some (q p.1.2 p.2.2, p)
              | some b0 => if q p.1.2 p.2.2 < b0.1
                  then some (q p.1.2 p.2.2, p) else some b)
              = some (q p.1.2 p.2.2, p) := by
            simp only [if_pos hq]
          rw [hst]
          exact ih _ htot'
        · rw [if_neg (by simpa using hq)]
          have hst : (match (some b : Option (ℚ × (Nat × BTree) × (Nat × BTree))) with
              | none => some (q p.1.2 p.2.2, p)
              | some b0 => if q p.1.2 p.2.2 < b0.1
                  then some (q p.1.2 p.2.2, p) else some b)
              = some b := by
            simp only [if_neg hq]
          rw [hst]
          exact ih _ htot'

/-- Claim C2: under a total oracle, the scan of
`merge_two_trees_via_nj` commits exactly the pair `(u,v)` that minimizes
`q(u,v) = (n-2)·d(u,v) - xsub(u) - xsub(v)` among all pairs the oracle
accepts, ties broken by the lexicographic order of the pool indices --
equivalently, scanning pairs in ascending `q` (stable in pool order) and
accepting the first pair that passes yields the committed pair. -/
theorem claim_C2 (n : Nat) (pool : List BTree) (d : BTree → BTree → ℚ)
    (xsub : BTree → ℚ) (orc : BTree → BTree → Option Bool)
    (horc : ∀ p ∈ enumPairs pool, (orc p.1.2 p.2.2).isSome = true)
    (m : ℚ) (c : (Nat × BTree) × (Nat × BTree)) :
    scanE n pool d xsub orc = .ok (some (m, c)) ↔
      (orc c.1.2 c.2.2 = some false ∧ c ∈ enumPairs pool ∧
        m = qOf n d xsub c.1.2 c.2.2 ∧
        ∀ p ∈ enumPairs pool, orc p.1.2 p.2.2 = some false →
          (qOf n d xsub c.1.2 c.2.2 < qOf n d xsub p.1.2 p.2.2 ∨
            (qOf n d xsub c.1.2 c.2.2 = qOf n d xsub p.1.2 p.2.2 ∧
              pairLexLe c p))) := by
  rw [scanE, scanGo_eq_qminFold _ _ _ _ horc]
  have hpw : List.Pairwise pairLexLt
      ((enumPairs pool).filter
        fun p => decide (orc p.1.2 p.2.2 = some false)) :=
    (pairwise_enumPairs pool).filter _
  constructor
  · intro h
    have h' := qminFold_none_char _ hpw m c |>.mp (Except.ok.inj h)
    obtain ⟨hm, hmem, hall⟩ := h'
    rw [List.mem_filter] at hmem
    refine ⟨by simpa using hmem.2, hmem.1, hm, ?_⟩
    intro p hp hacc
    exact hall p (List.mem_filter.mpr ⟨hp, by simpa using hacc⟩)
  · rintro ⟨hacc, hmem, hm, hall⟩
    refine congrArg Except.ok ((qminFold_none_char _ hpw m c).mpr
      ⟨hm, List.mem_filter.mpr ⟨hmem, by simpa using hacc⟩, ?_⟩)
    intro p hp
    rw [List.mem_filter] at hp
    exact hall p hp.1 (by simpa using hp.2)

/-- C2 witness: with three pool leaves, distances making the rejected
pair `(0,1)` the raw Q-minimum and a tie between the accepted pairs
`(0,2)` and `(1,2)`, the scan commits `(0,2)` -- the lexicographically
first accepted pair of minimal Q. -/
theorem claim_C2_witness :
    scanE 3 [BTree.leaf 0, .leaf 1, .leaf 2] exDfScan (fun _ => 0)
        exOrcScan = .ok (some (1, ((0, .leaf 0), (2, .leaf 2)))) :=
  (claim_C2 3 [BTree.leaf 0, .leaf 1, .leaf 2] exDfScan (fun _ => 0)
      exOrcScan (by decide) 1 ((0, .leaf 0), (2, .leaf 2))).mpr (by decide)

/-! ## Claim C3: an all-rejected iteration crashes with a `TypeError` -/

/-- C3: when the scan of an iteration accepts no pair (`nodes_to_join`
stays `None`), the loop does not diverge and does not raise
`ConstraintInfeasible`: it crashes unpacking `None`
(`(nd1, nd2) = nodes_to_join` -- a Python `TypeError`), modelled as
`Err.noneUnpack`, which is not `Err.constraintInfeasible`. -/
theorem claim_C3 (fuel : Nat) (s : NJState) (hn : 1 < s.n) (hf : 0 < fuel)
    (hscan : scanE s.n s.pool s.d s.xsub
        (fun u v => test_join s.t1 s.t2 (leaves u) (leaves v)) = .ok none) :
    mergeLoop fuel s = .error Err.noneUnpack ∧
      Err.noneUnpack ≠ Err.constraintInfeasible := by
  refine ⟨?_, by decide⟩
  cases fuel with
  | zero => exact absurd hf (lt_irrefl 0)
  | succ f =>
    have hstep : loopStep s = .error Err.noneUnpack := by
      simp only [loopStep]
      rw [hscan]
    simp only [mergeLoop]
    rw [if_neg (not_le.mpr hn), hstep]

/-- C3 witness: in the state `exStateC3` the single live pair is
rejected (its clade union `{0,1}` is not a split of `((0,2),(1,3))`), so
the loop step fails with the `None`-unpack `TypeError`. -/
theorem claim_C3_witness :
    mergeLoop 1 exStateC3 = .error Err.noneUnpack ∧
      Err.noneUnpack ≠ Err.constraintInfeasible :=
  claim_C3 1 exStateC3 (by decide) (by decide) (by decide)

/-! ## Claim C5: early termination on a spanning edit -/

/-- C5: if the committed join edits a constraint tree and the resulting
`tree1` (respectively `tree2`) spans the full taxon set, the loop
returns it immediately as the final result -- regardless of how many
live nodes remain in the pool (`s.n` is arbitrary above the loop
guard), and no further Q-scans are performed: the recursion in
`mergeLoop` stops at this iteration. -/
theorem claim_C5 (fuel : Nat) (s : NJState) (hn : 1 < s.n) (hf : 0 < fuel)
    (m : ℚ) (i j : Nat) (u v : BTree)
    (hscan : scanE s.n s.pool s.d s.xsub
        (fun a b => test_join s.t1 s.t2 (leaves a) (leaves b))
      = .ok (some (m, (i, u), (j, v))))
    (t1' : BTree) (ot2 : Option BTree)
    (hjoin : join_nodes s.t1 s.t2 (leaves u) (leaves v) u v
      = some (some t1', ot2, true)) :
    (leaves t1' = s.full → mergeLoop fuel s = .ok t1') ∧
    (∀ t2', ot2 = some t2' → leaves t1' ≠ s.full → leaves t2' = s.full →
      mergeLoop fuel s = .ok t2') := by
  have h1 : loopStep s = afterScan s u v := by
    unfold loopStep
    rw [hscan]
  have h2 : afterScan s u v = afterJoin s u v t1' ot2 true := by
    unfold afterScan
    rw [hjoin]
  cases fuel with
  | zero => exact absurd hf (lt_irrefl 0)
  | succ f =>
    constructor
    · intro hspan
      have hstep : loopStep s = .ok (.inl t1') := by
        rw [h1, h2]
        unfold afterJoin
        rw [if_pos rfl, if_pos hspan]
      simp only [mergeLoop]
      rw [if_neg (not_le.mpr hn), hstep]
    · intro t2' hot2 hne hspan
      subst hot2
      have hstep : loopStep s = .ok (.inl t2') := by
        rw [h1, h2]
        unfold afterJoin
        rw [if_pos rfl, if_neg hne]
        show (if leaves t2' = s.full then Except.ok (Sum.inl t2')
          else Except.ok (Sum.inr (commitPool s t1' t2' u v))) = _
        rw [if_pos hspan]
      simp only [mergeLoop]
      rw [if_neg (not_le.mpr hn), hstep]

/-- C5 witness: `T1 = ((0,1),2)`, `T2 = (3)`, distances making the pair
`({0},{3})` the Q-minimum.  Its commit (editor case 6, whole-`T2`
branch) produces a tree on all four taxa; the loop returns it at once
although three live nodes remain in the pool. -/
theorem claim_C5_witness :
    mergeLoop 4 (initState exT012 (.leaf 3) [0, 1, 2, 3] exDfC5)
      = .ok (.node (.node (.leaf 0) (.node (.leaf 1) (.leaf 2)))
          (.leaf 3)) :=
  (claim_C5 4 (initState exT012 (.leaf 3) [0, 1, 2, 3] exDfC5)
      (by decide) (by decide) (-4) 0 3 (.leaf 0) (.leaf 3) (by decide)
      (.node (.node (.leaf 0) (.node (.leaf 1) (.leaf 2))) (.leaf 3))
      none (by decide)).1 (by decide)

/-! ## Claim C8: there is no negative-distance check -/

theorem afterJoin_error {s : NJState} {u v t1' : BTree} {ot2 : Option BTree}
    {edited : Bool} {e : Err}
    (h : afterJoin s u v t1' ot2 edited = .error e) : e = Err.noneTree := by
  unfold afterJoin at h
  split at h
  · split at h
    · exact absurd h (by simp)
    · split at h
      · exact (Except.error.inj h).symm
      · split at h
        · exact absurd h (by simp)
        · exact absurd h (by simp)
  · split at h
    · exact (Except.error.inj h).symm
    · exact absurd h (by simp)

theorem afterScan_error {s : NJState} {u v : BTree} {e : Err}
    (h : afterScan s u v = .error e) :
    e = Err.joinRaise ∨ e = Err.noneTree := by
  unfold afterScan at h
  cases hj : join_nodes s.t1 s.t2 (leaves u) (leaves v) u v with
  | none =>
    rw [hj] at h
    have h2 : (Except.error Err.joinRaise : Except Err (BTree ⊕ NJState))
        = .error e := h
    exact Or.inl (Except.error.inj h2).symm
  | some trip =>
    obtain ⟨o1, o2, ed⟩ := trip
    rw [hj] at h
    cases o1 with
    | none =>
      have h2 : (Except.error Err.joinRaise : Except Err (BTree ⊕ NJState))
          = .error e := h
      exact Or.inl (Except.error.inj h2).symm
    | some t1' =>
      have h2 : afterJoin s u v t1' o2 ed = .error e := h
      exact Or.inr (afterJoin_error h2)

theorem scanGo_error {q : BTree → BTree → ℚ}
    {orc : BTree → BTree → Option Bool} :
    ∀ {l : List ((Nat × BTree) × (Nat × BTree))}
      {s : Option (ℚ × (Nat × BTree) × (Nat × BTree))} {e : Err},
      scanGo q orc l s = .error e → e = Err.oracleRaise := by
  intro l
  induction l with
  | nil => intro s e h; simp [scanGo] at h
  | cons p ps ih =>
    intro s e h
    simp only [scanGo] at h
    split at h
    · split at h
      · exact (Except.error.inj h).symm
      · exact ih h
      · exact ih h
    · exact ih h

theorem loopStep_error {s : NJState} {e : Err}
    (h : loopStep s = .error e) :
    e = Err.oracleRaise ∨ e = Err.noneUnpack ∨ e = Err.joinRaise ∨
      e = Err.noneTree := by
  unfold loopStep at h
  cases hsc : scanE s.n s.pool s.d s.xsub
      (fun u v => test_join s.t1 s.t2 (leaves u) (leaves v)) with
  | error e' =>
    rw [hsc] at h
    have h2 : (Except.error e' : Except Err (BTree ⊕ NJState))
        = .error e := h
    have h3 : e' = Err.oracleRaise := scanGo_error hsc
    exact Or.inl ((Except.error.inj h2).symm.trans h3)
  | ok o =>
    rw [hsc] at h
    cases o with
    | none =>
      have h2 : (Except.error Err.noneUnpack : Except Err (BTree ⊕ NJState))
          = .error e := h
      exact Or.inr (Or.inl (Except.error.inj h2).symm)
    | some trip =>
      obtain ⟨m, iu, jv⟩ := trip
      obtain ⟨i, u⟩ := iu
      obtain ⟨j, v⟩ := jv
      have h2 : afterScan s u v = .error e := h
      rcases afterScan_error h2 with h3 | h3
      · exact Or.inr (Or.inr (Or.inl h3))
      · exact Or.inr (Or.inr (Or.inr h3))

theorem mergeLoop_ne_badDistance :
    ∀ (fuel : Nat) (s : NJState),
      mergeLoop fuel s ≠ .error Err.badDistance := by
  intro fuel
  induction fuel with
  | zero =>
    intro s h
    simp only [mergeLoop] at h
    by_cases hn : s.n ≤ 1
    · rw [if_pos hn] at h
      cases hp : s.pool with
      | nil =>
        rw [hp] at h
        have h2 : (Except.error Err.emptyPool : Except Err BTree)
            = .error Err.badDistance := h
        exact absurd (Except.error.inj h2) (by decide)
      | cons t ts =>
        rw [hp] at h
        have h2 : (Except.ok t : Except Err BTree)
            = .error Err.badDistance := h
        simp at h2
    · rw [if_neg hn] at h
      have h2 : (Except.error Err.fuelOut : Except Err BTree)
          = .error Err.badDistance := h
      exact absurd (Except.error.inj h2) (by decide)
  | succ f ih =>
    intro s h
    simp only [mergeLoop] at h
    by_cases hn : s.n ≤ 1
    · rw [if_pos hn] at h
      cases hp : s.pool with
      | nil =>
        rw [hp] at h
        have h2 : (Except.error Err.emptyPool : Except Err BTree)
            = .error Err.badDistance := h
        exact absurd (Except.error.inj h2) (by decide)
      | cons t ts =>
        rw [hp] at h
        have h2 : (Except.ok t : Except Err BTree)
            = .error Err.badDistance := h
        simp at h2
    · rw [if_neg hn] at h
      cases hstep : loopStep s with
      | error e =>
        rw [hstep] at h
        have h2 : (Except.error e : Except Err BTree)
            = .error Err.badDistance := h
        have h3 := loopStep_error hstep
        rw [Except.error.inj h2] at h3
        rcases h3 with h3 | h3 | h3 | h3 <;> exact absurd h3 (by decide)
      | ok o =>
        rw [hstep] at h
        cases o with
        | inl t =>
          have h2 : (Except.ok t : Except Err BTree)
              = .error Err.badDistance := h
          simp at h2
        | inr s' =>
          have h2 : mergeLoop f s' = .error Err.badDistance := h
          exact ih s' h2

/-- C8, counterexample.  The claim says inputs with a negative distance
entry are rejected with `BadDistance` at entry.  The core performs no
such check: with `d(0,1) = -1` the merge runs to completion and returns
a tree. -/
theorem claim_C8_cex :
    exDfNeg 0 1 < 0 ∧
    merge_two_trees_via_nj (.leaf 0) (.leaf 1) [0, 1] exDfNeg
      = .ok (.node (.leaf 0) (.leaf 1)) ∧
    merge_two_trees_via_nj (.leaf 0) (.leaf 1) [0, 1] exDfNeg
      ≠ .error Err.badDistance := by decide

/-- C8, amended: the entry checks of `merge_two_trees_via_nj` are
exactly leaf-set disjointness and matrix coverage -- they never read the
distance values, and no execution of the core ever produces a
`BadDistance` error; negative entries flow into the Q-computation
unchecked. -/
theorem claim_C8 :
    (∀ (t1 t2 : BTree) (order : List Nat) (df : Nat → Nat → ℚ),
      merge_two_trees_via_nj t1 t2 order df ≠ .error Err.badDistance) ∧
    (∀ (t1 t2 : BTree) (order : List Nat) (df : Nat → Nat → ℚ),
      (leaves t1 ∩ leaves t2).Nonempty →
      merge_two_trees_via_nj t1 t2 order df = .error Err.disjointness) ∧
    (∀ (t1 t2 : BTree) (order : List Nat) (df : Nat → Nat → ℚ),
      ¬ (leaves t1 ∩ leaves t2).Nonempty →
      order.toFinset ≠ leaves t1 ∪ leaves t2 →
      merge_two_trees_via_nj t1 t2 order df = .error Err.leafMismatch) := by
  refine ⟨?_, ?_, ?_⟩
  · intro t1 t2 order df h
    unfold merge_two_trees_via_nj at h
    by_cases h1 : (leaves t1 ∩ leaves t2).Nonempty
    · rw [if_pos h1] at h
      exact absurd (Except.error.inj h) (by decide)
    · rw [if_neg h1] at h
      by_cases h2 : order.toFinset ≠ leaves t1 ∪ leaves t2
      · rw [if_pos h2] at h
        exact absurd (Except.error.inj h) (by decide)
      · rw [if_neg h2] at h
        exact mergeLoop_ne_badDistance _ _ h
  · intro t1 t2 order df h1
    unfold merge_two_trees_via_nj
    rw [if_pos h1]
  · intro t1 t2 order df h1 h2
    unfold merge_two_trees_via_nj
    rw [if_neg h1, if_pos h2]

/-- C8 witness: a shared leaf triggers the disjointness entry error, and
the negative-entry run of the counterexample is not a `BadDistance`
error. -/
theorem claim_C8_witness :
    merge_two_trees_via_nj (.leaf 0) (.leaf 0) [0] exDfNeg
      = .error Err.disjointness ∧
    merge_two_trees_via_nj (.leaf 0) (.leaf 1) [0, 1] exDfNeg
      ≠ .error Err.badDistance :=
  ⟨claim_C8.2.1 (.leaf 0) (.leaf 0) [0] exDfNeg (by decide),
    claim_C8.1 (.leaf 0) (.leaf 1) [0, 1] exDfNeg⟩

/-! ## Claim C9: determinism -/

/-- C9, counterexample.  Identical inputs (same trees `(0,1)`, `(2,3)`
and the same symmetric distance function with a four-way Q-tie among the
cross pairs) merged under two different enumeration orders of the same
taxon set -- the source iterates the Python set `pdm._mapped_taxa`,
whose order is hash-dependent -- produce trees with different unrooted
split sets: one output displays the cherry `{0,2}`, the other `{0,3}`. -/
theorem claim_C9_cex :
    ([0, 1, 2, 3] : List Nat).toFinset = ([0, 1, 3, 2] : List Nat).toFinset ∧
    merge_two_trees_via_nj exT01 exT23 [0, 1, 2, 3] exDfTie
      = .ok (.node (.node (.leaf 1) (.node (.leaf 0) (.leaf 2)))
          (.leaf 3)) ∧
    merge_two_trees_via_nj exT01 exT23 [0, 1, 3, 2] exDfTie
      = .ok (.node (.node (.leaf 1) (.node (.leaf 0) (.leaf 3)))
          (.leaf 2)) ∧
    splitKeys (.node (.node (.leaf 1) (.node (.leaf 0) (.leaf 2)))
        (.leaf 3)) ≠
      splitKeys (.node (.node (.leaf 1) (.node (.leaf 0) (.leaf 3)))
        (.leaf 2)) := by decide

/-- C9, amended: the merge is deterministic relative to the taxon
enumeration order -- in this pure embedding the run is a function of the
inputs together with the enumeration order, so two runs with the same
order coincide -- and the other hash-dependent order in the source, the
dict iteration order of the split maps, does not affect whether a clade
lookup succeeds.  (By the counterexample, the enumeration order itself
*does* affect the output on Q-ties, so determinism holds only relative
to it.) -/
theorem claim_C9 :
    (∀ (t1 t2 : BTree) (df : Nat → Nat → ℚ) (o1 o2 : List Nat), o1 = o2 →
      merge_two_trees_via_nj t1 t2 o1 df
        = merge_two_trees_via_nj t1 t2 o2 df) ∧
    (∀ (T : BTree) (o1 o2 : List BTree) (C : Finset Nat),
      o1.Perm (positions T) → o2.Perm (positions T) →
      (get_node_from_clade T (map_splits_to_nodes (leaves T) o1) C).isSome
        = (get_node_from_clade T (map_splits_to_nodes (leaves T) o2)
            C).isSome) := by
  constructor
  · intro t1 t2 df o1 o2 h
    rw [h]
  · intro T o1 o2 C h1 h2
    rw [gnfc_isSome_iff_present h1, gnfc_isSome_iff_present h2]

/-- C9 witness: the amended statement at the concrete inputs of the
counterexample (same order twice), and order-independence of a concrete
lookup. -/
theorem claim_C9_witness :
    merge_two_trees_via_nj exT01 exT23 [0, 1, 2, 3] exDfTie
      = merge_two_trees_via_nj exT01 exT23 [0, 1, 2, 3] exDfTie ∧
    (get_node_from_clade exT4
        (map_splits_to_nodes (leaves exT4) (positions exT4))
        {0, 1}).isSome
      = (get_node_from_clade exT4
          (map_splits_to_nodes (leaves exT4) (positions exT4).reverse)
          {0, 1}).isSome :=
  ⟨claim_C9.1 exT01 exT23 exDfTie [0, 1, 2, 3] [0, 1, 2, 3] rfl,
    claim_C9.2 exT4 (positions exT4) (positions exT4).reverse {0, 1}
      (List.Perm.refl _) (List.reverse_perm _)⟩

end NJ
